import Mathlib

/-!
Verification of the cv-chatbot query-routing pipeline.

This file gives a shallow embedding of the pipeline functions of the
repository (`server.js`, the variant servers, and the frontend scripts)
and proves the frozen claims about them.

Text is modelled as `List Char`.  JavaScript strings are sequences of
UTF-16 units; all texts handled by the pipeline stay inside the basic
multilingual plane, where the two views agree, so `List Char` is a
faithful model.  The character-level operations of JavaScript
(`toLowerCase`, NFD decomposition, the `\s` and `\w` regex classes) are
modelled over the character repertoire actually used by the repository:
ASCII plus the German/Romanian letters appearing in the sources
(ä ö ü ß ă â î ș ş ț ţ and their capitals); every other character is
left fixed, exactly as the pipeline never distinguishes them.
-/

namespace CVBot

/-- The JavaScript `\s` class restricted to the whitespace characters the
repository can encounter (space, tab, LF, CR, vertical tab, form feed).
Used by `trim`, `split(/\s+/)` and `replace(/\s+/g, ' ')`. -/
def wsB (c : Char) : Bool :=
  c == ' ' || c == '\t' || c == '\n' || c == '\r' || c == '\x0b' || c == '\x0c'

/-- The JavaScript `\w` class: `[A-Za-z0-9_]`, used by the `\b` anchors. -/
def wordB (c : Char) : Bool :=
  decide (('a' ≤ c ∧ c ≤ 'z') ∨ ('A' ≤ c ∧ c ≤ 'Z') ∨ ('0' ≤ c ∧ c ≤ '9') ∨ c = '_')

/-- The uppercase/lowercase pairs of the modelled repertoire. -/
def lowerPairs : List (Char × Char) :=
  [('A', 'a'), ('B', 'b'), ('C', 'c'), ('D', 'd'), ('E', 'e'), ('F', 'f'),
   ('G', 'g'), ('H', 'h'), ('I', 'i'), ('J', 'j'), ('K', 'k'), ('L', 'l'),
   ('M', 'm'), ('N', 'n'), ('O', 'o'), ('P', 'p'), ('Q', 'q'), ('R', 'r'),
   ('S', 's'), ('T', 't'), ('U', 'u'), ('V', 'v'), ('W', 'w'), ('X', 'x'),
   ('Y', 'y'), ('Z', 'z'), ('Ä', 'ä'), ('Ö', 'ö'), ('Ü', 'ü'), ('Ă', 'ă'),
   ('Â', 'â'), ('Î', 'î'), ('Ș', 'ș'), ('Ş', 'ş'), ('Ț', 'ț'), ('Ţ', 'ţ')]

/-- `String.prototype.toLowerCase`, per character, on the repertoire used by
the repository: the ASCII letters plus the German/Romanian capitals that
occur in the sources.  Everything else is fixed. -/
def jsLower (c : Char) : Char :=
  ((lowerPairs.find? (fun p => p.1 == c)).map Prod.snd).getD c

/-- Combining diacritical marks: the range stripped by `normalize` after
NFD decomposition (`U+0300`–`U+036F`). -/
def combB (c : Char) : Bool := decide (0x300 ≤ c.toNat ∧ c.toNat ≤ 0x36f)

/-- The NFD decompositions of the repertoire's accented letters: base
letter followed by the combining mark. -/
def nfdPairs : List (Char × List Char) :=
  [('ä', ['a', '̈']), ('ö', ['o', '̈']), ('ü', ['u', '̈']),
   ('ă', ['a', '̆']), ('â', ['a', '̂']), ('î', ['i', '̂']),
   ('ș', ['s', '̦']), ('ş', ['s', '̧']), ('ț', ['t', '̦']), ('ţ', ['t', '̧'])]

/-- Canonical (NFD) decomposition, per character, on the repository's
repertoire; characters outside the table are atomic. -/
def nfdChar (c : Char) : List Char :=
  ((nfdPairs.find? (fun p => p.1 == c)).map Prod.snd).getD [c]

/-- Case-insensitive character comparison (the `i` regex flag). -/
def ciEq (a b : Char) : Bool := jsLower a == jsLower b

/-- `jsLower` either fixes a character or maps one of the finitely many
capitals of the repertoire to its lowercase form. -/
theorem jsLower_cases (c : Char) :
    jsLower c = c ∨ (c, jsLower c) ∈ lowerPairs := by
  unfold jsLower
  cases h : lowerPairs.find? (fun p => p.1 == c) with
  | none => left; simp [h]
  | some p =>
    right
    have hm := List.mem_of_find?_eq_some h
    have he := List.find?_some h
    simp only [beq_iff_eq] at he
    simp only [h, Option.map_some', Option.getD_some]
    rw [← he]
    exact hm

/-- `nfdChar` either keeps a character atomic or decomposes one of the
repertoire's accented letters. -/
theorem nfdChar_cases (c : Char) :
    nfdChar c = [c] ∨ (c, nfdChar c) ∈ nfdPairs := by
  unfold nfdChar
  cases h : nfdPairs.find? (fun p => p.1 == c) with
  | none => left; simp [h]
  | some p =>
    right
    have hm := List.mem_of_find?_eq_some h
    have he := List.find?_some h
    simp only [beq_iff_eq] at he
    simp only [h, Option.map_some', Option.getD_some]
    rw [← he]
    exact hm

/-- Character-level facts about the lowercase table, checked by computation:
lowercasing preserves whitespace-ness and word-character-ness, and the
lowercase forms are fixed points. -/
theorem lowerPairs_facts :
    ∀ p ∈ lowerPairs,
      wsB p.2 = wsB p.1 ∧ wordB p.2 = wordB p.1 ∧ jsLower p.2 = p.2 := by
  decide

/-- Lowercasing does not change whitespace-ness. -/
theorem wsB_jsLower (c : Char) : wsB (jsLower c) = wsB c := by
  rcases jsLower_cases c with h | h
  · rw [h]
  · exact (lowerPairs_facts _ h).1

/-- Lowercasing does not change word-character-ness. -/
theorem wordB_jsLower (c : Char) : wordB (jsLower c) = wordB c := by
  rcases jsLower_cases c with h | h
  · rw [h]
  · exact (lowerPairs_facts _ h).2.1

/-- `jsLower` is idempotent. -/
theorem jsLower_idem (c : Char) : jsLower (jsLower c) = jsLower c := by
  rcases jsLower_cases c with h | h
  · rw [h, h]
  · rw [(lowerPairs_facts _ h).2.2]

/-! ### Whitespace collapsing and trimming

`server.js` line 41: `normalize` lowercases, NFD-decomposes, strips the
combining marks, collapses whitespace runs (`replace(/\s+/g, ' ')`) and
trims. -/

/-- `replace(/\s+/g, ' ')`: every maximal whitespace run becomes a single
space.  The flag records whether the scanner is inside a run. -/
def collapseAux : Bool → List Char → List Char
  | _, [] => []
  | inRun, c :: cs =>
    if wsB c then
      if inRun then collapseAux true cs else ' ' :: collapseAux true cs
    else c :: collapseAux false cs

def collapseWS (l : List Char) : List Char := collapseAux false l

/-- `String.prototype.trim`: drop whitespace from both ends. -/
def trimWS (l : List Char) : List Char :=
  ((l.dropWhile wsB).reverse.dropWhile wsB).reverse

/-- One character of the composite lowercase/NFD/strip-marks pass. -/
def coreChar (c : Char) : List Char :=
  (nfdChar (jsLower c)).filter (fun d => !combB d)

/-- `s.toLowerCase().normalize('NFD').replace(/[̀-ͯ]/g, '')`. -/
def coreL (l : List Char) : List Char :=
  ((l.map jsLower).flatMap nfdChar).filter (fun d => !combB d)

/-- `normalize` from `server.js` lines 41–48, on character lists. -/
def normalizeL (l : List Char) : List Char :=
  trimWS (collapseWS (coreL l))

/-- `normalize` from `server.js` lines 41–48. -/
def normalize (s : String) : String := ⟨normalizeL s.data⟩

/-- A character untouched by a second lowercase/NFD/strip pass. -/
def stableB (c : Char) : Bool :=
  jsLower c == c && nfdChar c == [c] && !combB c

theorem coreL_eq_flatMap (l : List Char) : coreL l = l.flatMap coreChar := by
  induction l with
  | nil => rfl
  | cons c cs ih =>
    simp only [coreL, List.map_cons, List.flatMap_cons, List.filter_append] at *
    rw [ih]
    rfl

/-- All per-character facts of the NFD table, by computation. -/
theorem nfdPairs_facts :
    ∀ p ∈ nfdPairs, ∀ d ∈ p.2.filter (fun d => !combB d), stableB d = true := by
  decide

/-- All outputs of `coreChar` on the lowercase table, by computation. -/
theorem lowerPairs_core_facts :
    ∀ p ∈ lowerPairs, ∀ d ∈ coreChar p.1, stableB d = true := by
  decide

set_option maxHeartbeats 1200000 in
/-- Every character produced by the lowercase/NFD/strip pass is stable:
a second pass leaves it alone. -/
theorem coreChar_stable (c : Char) : ∀ d ∈ coreChar c, stableB d = true := by
  rcases jsLower_cases c with h | h
  · rcases nfdChar_cases c with h2 | h2
    · intro d hd
      unfold coreChar at hd
      rw [h, h2] at hd
      rcases List.mem_filter.mp hd with ⟨hm, hc⟩
      rcases List.mem_singleton.mp hm with rfl
      simp only [stableB, h, h2, hc, beq_self_eq_true, Bool.and_self, Bool.and_true]
    · intro d hd
      unfold coreChar at hd
      rw [h] at hd
      have := nfdPairs_facts _ h2
      exact this d hd
  · exact lowerPairs_core_facts _ h

/-- On stable characters the lowercase/NFD/strip pass is the identity. -/
theorem coreL_of_stable (l : List Char) (h : ∀ d ∈ l, stableB d = true) :
    coreL l = l := by
  rw [coreL_eq_flatMap]
  induction l with
  | nil => rfl
  | cons c cs ih =>
    have hc := h c (List.mem_cons_self c cs)
    simp only [stableB, Bool.and_eq_true, beq_iff_eq, Bool.not_eq_true'] at hc
    obtain ⟨⟨h1, h2⟩, h3⟩ := hc
    simp only [List.flatMap_cons]
    rw [ih (fun d hd => h d (List.mem_cons_of_mem _ hd))]
    unfold coreChar
    rw [h1, h2]
    simp [h3]

/-- Characters emitted by the collapse pass come from the input or are a
space. -/
theorem mem_collapseAux {c : Char} :
    ∀ (w : Bool) (l : List Char), c ∈ collapseAux w l → c = ' ' ∨ c ∈ l := by
  intro w l
  induction l generalizing w with
  | nil => intro h; cases h
  | cons a as ih =>
    intro h
    unfold collapseAux at h
    split at h
    · split at h
      · rcases ih _ h with h' | h'
        · exact Or.inl h'
        · exact Or.inr (List.mem_cons_of_mem _ h')
      · rcases List.mem_cons.mp h with rfl | h'
        · exact Or.inl rfl
        · rcases ih _ h' with h'' | h''
          · exact Or.inl h''
          · exact Or.inr (List.mem_cons_of_mem _ h'')
    · rcases List.mem_cons.mp h with rfl | h'
      · exact Or.inr (List.mem_cons_self _ _)
      · rcases ih _ h' with h'' | h''
        · exact Or.inl h''
        · exact Or.inr (List.mem_cons_of_mem _ h'')

/-- No-two-adjacent-whitespace relation. -/
def noWW (a b : Char) : Prop := wsB a = false ∨ wsB b = false

/-- In collapse state `true` the next emitted character is not whitespace. -/
theorem collapseAux_true_head :
    ∀ l : List Char, ∀ c ∈ (collapseAux true l).head?, wsB c = false := by
  intro l
  induction l with
  | nil => intro c h; cases h
  | cons a as ih =>
    intro c h
    unfold collapseAux at h
    split at h
    · exact ih c h
    · next hw =>
      simp only [List.head?_cons, Option.mem_def, Option.some.injEq] at h
      subst h
      exact Bool.not_eq_true _ ▸ (by simpa using hw)

/-- The collapse pass emits no two adjacent whitespace characters. -/
theorem collapseAux_chain (l : List Char) :
    ∀ w, List.Chain' noWW (collapseAux w l) := by
  induction l with
  | nil => intro w; simp [collapseAux, List.Chain']
  | cons a as ih =>
    intro w
    unfold collapseAux
    split
    · split
      · exact ih true
      · rw [List.chain'_cons']
        refine ⟨?_, ih true⟩
        intro b hb
        exact Or.inr (collapseAux_true_head as b hb)
    · next hw =>
      rw [List.chain'_cons']
      refine ⟨?_, ih false⟩
      intro b _
      exact Or.inl (by simpa using hw)

/-- Every whitespace character the collapse pass emits is a plain space. -/
theorem collapseAux_wsOk (l : List Char) :
    ∀ w, ∀ c ∈ collapseAux w l, wsB c = true → c = ' ' := by
  induction l with
  | nil => intro w c h; cases h
  | cons a as ih =>
    intro w c h hws
    unfold collapseAux at h
    split at h
    · split at h
      · exact ih _ c h hws
      · rcases List.mem_cons.mp h with rfl | h'
        · rfl
        · exact ih _ c h' hws
    · next hw =>
      rcases List.mem_cons.mp h with rfl | h'
      · exact absurd hws (by simpa using hw)
      · exact ih _ c h' hws

/-- The collapse pass is the identity on already-collapsed text. -/
theorem collapseAux_fix (l : List Char)
    (hch : List.Chain' noWW l) (hok : ∀ c ∈ l, wsB c = true → c = ' ') :
    collapseAux false l = l ∧
      ((∀ c ∈ l.head?, wsB c = false) → collapseAux true l = l) := by
  induction l with
  | nil => exact ⟨rfl, fun _ => rfl⟩
  | cons a as ih =>
    have hch' : List.Chain' noWW as := (List.chain'_cons'.mp hch).2
    have hok' : ∀ c ∈ as, wsB c = true → c = ' ' :=
      fun c hc => hok c (List.mem_cons_of_mem _ hc)
    have ihr := ih hch' hok'
    by_cases hw : wsB a = true
    · have ha : a = ' ' := hok a (List.mem_cons_self _ _) hw
      have hhead : ∀ c ∈ as.head?, wsB c = false := by
        intro c hc
        rcases (List.chain'_cons'.mp hch).1 c hc with h | h
        · exact absurd hw (by simp [h])
        · exact h
      constructor
      · unfold collapseAux
        rw [if_pos hw, if_neg (by simp)]
        rw [ihr.2 hhead, ha]
      · intro hh
        have := hh a (by simp)
        exact absurd hw (by simp [this])
    · have hw' : wsB a = false := by simpa using hw
      constructor
      · unfold collapseAux
        rw [if_neg (by simp [hw'])]
        rw [ihr.1]
      · intro _
        unfold collapseAux
        rw [if_neg (by simp [hw'])]
        rw [ihr.1]

theorem dropWhile_head_false {α : Type} {p : α → Bool} :
    ∀ (l : List α) (c : α), (l.dropWhile p).head? = some c → p c = false := by
  intro l
  induction l with
  | nil => intro c h; cases h
  | cons a as ih =>
    intro c h
    by_cases hp : p a = true
    · rw [List.dropWhile_cons_of_pos hp] at h
      exact ih c h
    · rw [List.dropWhile_cons_of_neg hp] at h
      simp only [List.head?_cons, Option.some.injEq] at h
      subst h
      simpa using hp

theorem dropWhile_eq_self_of_head {α : Type} {p : α → Bool} {l : List α}
    (h : ∀ c ∈ l.head?, p c = false) : l.dropWhile p = l := by
  cases l with
  | nil => rfl
  | cons a as =>
    have := h a (by simp)
    rw [List.dropWhile_cons_of_neg (by simp [this])]

/-- Every list splits as leading whitespace, its trimmed core, and
trailing whitespace. -/
theorem trim_decomp (l : List Char) :
    l.takeWhile wsB ++
      (trimWS l ++ ((l.dropWhile wsB).reverse.takeWhile wsB).reverse) = l := by
  conv_rhs => rw [← List.takeWhile_append_dropWhile (p := wsB) (l := l)]
  congr 1
  unfold trimWS
  rw [← List.reverse_append, List.takeWhile_append_dropWhile, List.reverse_reverse]

theorem trimWS_part (l : List Char) : trimWS l <:+: l :=
  ⟨l.takeWhile wsB, ((l.dropWhile wsB).reverse.takeWhile wsB).reverse, by
    rw [List.append_assoc]; exact trim_decomp l⟩

theorem trimWS_head (l : List Char) :
    ∀ c ∈ (trimWS l).head?, wsB c = false := by
  intro c hc
  unfold trimWS at hc
  rw [List.head?_reverse] at hc
  have hY : (l.dropWhile wsB).reverse.dropWhile wsB ≠ [] := by
    intro h0; rw [h0] at hc; cases hc
  have h1 : ((l.dropWhile wsB).reverse).getLast? = some c := by
    conv_lhs =>
      rw [← List.takeWhile_append_dropWhile wsB (l.dropWhile wsB).reverse]
    rw [List.getLast?_append_of_ne_nil _ hY]
    exact hc
  rw [List.getLast?_reverse] at h1
  exact dropWhile_head_false l c h1

theorem trimWS_getLast (l : List Char) :
    ∀ c ∈ (trimWS l).getLast?, wsB c = false := by
  intro c hc
  unfold trimWS at hc
  rw [List.getLast?_reverse] at hc
  exact dropWhile_head_false _ c hc

/-- Trimming is the identity when both ends are not whitespace. -/
theorem trimWS_eq_self {l : List Char}
    (h1 : ∀ c ∈ l.head?, wsB c = false)
    (h2 : ∀ c ∈ l.getLast?, wsB c = false) : trimWS l = l := by
  unfold trimWS
  rw [dropWhile_eq_self_of_head h1]
  rw [dropWhile_eq_self_of_head (by rw [List.head?_reverse]; exact h2)]
  exact List.reverse_reverse l

/-- Trimming is idempotent. -/
theorem trimWS_idem (l : List Char) : trimWS (trimWS l) = trimWS l :=
  trimWS_eq_self (trimWS_head l) (trimWS_getLast l)

theorem normalizeL_idem (l : List Char) : normalizeL (normalizeL l) = normalizeL l := by
  have hsub : ∀ d ∈ normalizeL l, d ∈ collapseWS (coreL l) := by
    intro d hd
    exact (trimWS_part (collapseWS (coreL l))).subset hd
  have hstable : ∀ d ∈ normalizeL l, stableB d = true := by
    intro d hd
    rcases mem_collapseAux false (coreL l) (hsub d hd) with rfl | hd2
    · decide
    · rw [coreL_eq_flatMap] at hd2
      rcases List.mem_flatMap.mp hd2 with ⟨c, _, hdc⟩
      exact coreChar_stable c d hdc
  have hchain : List.Chain' noWW (normalizeL l) :=
    List.Chain'.infix (collapseAux_chain (coreL l) false) (trimWS_part _)
  have hok : ∀ c ∈ normalizeL l, wsB c = true → c = ' ' :=
    fun c hc => collapseAux_wsOk (coreL l) false c (hsub c hc)
  show trimWS (collapseWS (coreL (normalizeL l))) = normalizeL l
  rw [coreL_of_stable _ hstable]
  have hcoll : collapseWS (normalizeL l) = normalizeL l :=
    (collapseAux_fix _ hchain hok).1
  rw [hcoll]
  exact trimWS_eq_self (trimWS_head _) (trimWS_getLast _)

/-- **C5.** For every string `x`, `normalize (normalize x) = normalize x`:
the text normalizer of `server.js` (lowercase, canonical Unicode
decomposition, strip combining diacritical marks, collapse whitespace
runs, trim) is idempotent. -/
theorem normalize_idem (s : String) : normalize (normalize s) = normalize s :=
  congrArg String.mk (normalizeL_idem s.data)

example : normalize "  Ärger   şi  Țară " = "arger si tara" := by decide

example : normalize "How  OLD is she?" = "how old is she?" := by decide

/-! ### `split(/\s+/)` and `enforceShort`

`server.js` lines 288–292: `enforceShort` trims, splits on whitespace
runs, and truncates to `maxWords` words plus an ellipsis. -/

/-- JavaScript `split(/\s+/)`.  Maximal whitespace runs separate fields;
leading or trailing runs produce an empty first or last field (as in JS,
`" a ".split(/\s+/) = ["", "a", ""]`).  State: `none` while inside a
separator run, `some acc` while building a field. -/
def splitRun : Option (List Char) → List Char → List (List Char)
  | none, [] => [[]]
  | none, c :: cs =>
    if wsB c then splitRun none cs else splitRun (some [c]) cs
  | some acc, [] => [acc.reverse]
  | some acc, c :: cs =>
    if wsB c then acc.reverse :: splitRun none cs
    else splitRun (some (c :: acc)) cs

def jsSplitWS (l : List Char) : List (List Char) := splitRun (some []) l

/-- `words.join(' ')`. -/
def joinSp : List (List Char) → List Char
  | [] => []
  | [w] => w
  | w :: ws => w ++ ' ' :: joinSp ws

/-- `enforceShort` from `server.js` lines 288–292. -/
def enforceShortL (text : List Char) (maxWords : Nat) : List Char :=
  let words := jsSplitWS (trimWS text)
  if words.length ≤ maxWords then trimWS text
  else joinSp (words.take maxWords) ++ ['…']

def enforceShort (s : String) (maxWords : Nat) : String :=
  ⟨enforceShortL s.data maxWords⟩

/-- The number of words of a text, counted exactly as the code counts
them: `text.trim().split(/\s+/).length`. -/
def wordCount (l : List Char) : Nat := (jsSplitWS (trimWS l)).length

theorem splitRun_field {w : List Char} (hw : ∀ c ∈ w, wsB c = false) :
    ∀ (acc rest : List Char),
      splitRun (some acc) (w ++ rest) = splitRun (some (w.reverse ++ acc)) rest := by
  induction w with
  | nil => intro acc rest; simp
  | cons c cs ih =>
    intro acc rest
    have hc : wsB c = false := hw c (List.mem_cons_self _ _)
    have h1 : splitRun (some acc) ((c :: cs) ++ rest) =
        splitRun (some (c :: acc)) (cs ++ rest) := by
      simp [splitRun, hc]
    rw [h1, ih (fun d hd => hw d (List.mem_cons_of_mem _ hd))]
    simp

/-- Fields that are nonempty and whitespace-free. -/
def fieldsOK (ws : List (List Char)) : Prop :=
  ∀ f ∈ ws, f ≠ [] ∧ ∀ c ∈ f, wsB c = false

/-- Splitting is a left inverse of joining for well-formed fields. -/
theorem jsSplitWS_joinSp : ∀ ws : List (List Char), ws ≠ [] → fieldsOK ws →
    jsSplitWS (joinSp ws) = ws := by
  intro ws
  induction ws with
  | nil => intro h; cases h rfl
  | cons w rest ih =>
    intro _ hok
    have hw := hok w (List.mem_cons_self _ _)
    cases rest with
    | nil =>
      show splitRun (some []) (joinSp [w]) = [w]
      have : joinSp [w] = w ++ [] := by simp [joinSp]
      rw [this, splitRun_field hw.2]
      simp [splitRun]
    | cons w2 rest2 =>
      show splitRun (some []) (joinSp (w :: w2 :: rest2)) = w :: w2 :: rest2
      have hj : joinSp (w :: w2 :: rest2) = w ++ ' ' :: joinSp (w2 :: rest2) := rfl
      rw [hj, splitRun_field hw.2]
      have hsp : splitRun (some (w.reverse ++ [])) (' ' :: joinSp (w2 :: rest2)) =
          w :: splitRun none (joinSp (w2 :: rest2)) := by
        have hws : wsB ' ' = true := rfl
        simp [splitRun, hws]
      rw [hsp]
      congr 1
      have hw2 := hok w2 (by simp)
      have hhead : ∃ c2 tl, joinSp (w2 :: rest2) = c2 :: tl ∧ wsB c2 = false := by
        rcases hx : w2 with _ | ⟨c2, cs2⟩
        · exact absurd hx hw2.1
        · have hc2 : wsB c2 = false := hw2.2 c2 (by rw [hx]; simp)
          cases rest2 with
          | nil => exact ⟨c2, cs2, by simp [joinSp, hx], hc2⟩
          | cons w3 rest3 =>
            exact ⟨c2, cs2 ++ ' ' :: joinSp (w3 :: rest3), by simp [joinSp, hx], hc2⟩
      obtain ⟨c2, tl, heq, hc2⟩ := hhead
      rw [heq]
      have hnn : splitRun none (c2 :: tl) = splitRun (some []) (c2 :: tl) := by
        simp [splitRun, hc2]
      rw [hnn, ← heq]
      exact ih (by simp) (fun f hf => hok f (List.mem_cons_of_mem _ hf))

/-- Every character of every field comes from a field under construction
or from the input, never from a separator: fields are whitespace-free. -/
theorem splitRun_wsFree :
    ∀ (l : List Char) (st : Option (List Char)),
      (∀ c ∈ st.getD [], wsB c = false) →
      ∀ f ∈ splitRun st l, ∀ c ∈ f, wsB c = false := by
  intro l
  induction l with
  | nil =>
    intro st hst f hf c hc
    cases st with
    | none =>
      simp only [splitRun] at hf
      rcases List.mem_singleton.mp hf with rfl
      cases hc
    | some acc =>
      simp only [splitRun] at hf
      rcases List.mem_singleton.mp hf with rfl
      exact hst c (List.mem_reverse.mp hc)
  | cons a as ih =>
    intro st hst f hf c hc
    cases st with
    | none =>
      simp only [splitRun] at hf
      split at hf
      · exact ih none (by intro d hd; cases hd) f hf c hc
      · next ha =>
        refine ih (some [a]) ?_ f hf c hc
        intro d hd
        rcases List.mem_singleton.mp hd with rfl
        simpa using ha
    | some acc =>
      simp only [splitRun] at hf
      split at hf
      · rcases List.mem_cons.mp hf with rfl | hf'
        · exact hst c (List.mem_reverse.mp hc)
        · exact ih none (by intro d hd; cases hd) f hf' c hc
      · next ha =>
        refine ih (some (a :: acc)) ?_ f hf c hc
        intro d hd
        rcases List.mem_cons.mp hd with rfl | hd'
        · simpa using ha
        · exact hst d hd'

/-- State invariant for nonemptiness of the split fields. -/
def stOK (st : Option (List Char)) (l : List Char) : Prop :=
  match st with
  | some acc => acc ≠ [] ∨ ((∀ c ∈ l.head?, wsB c = false) ∧ l ≠ [])
  | none => l ≠ []

/-- On input that does not end in whitespace, all fields are nonempty
(provided the state invariant holds). -/
theorem splitRun_ne_nil :
    ∀ (l : List Char) (st : Option (List Char)),
      (∀ c ∈ l.getLast?, wsB c = false) → stOK st l →
      ∀ f ∈ splitRun st l, f ≠ [] := by
  intro l
  induction l with
  | nil =>
    intro st hlast hst f hf
    cases st with
    | none => exact absurd rfl hst
    | some acc =>
      simp only [splitRun] at hf
      rcases List.mem_singleton.mp hf with rfl
      rcases hst with h | h
      · simpa using h
      · exact absurd rfl h.2
  | cons a as ih =>
    intro st hlast hst f hf
    have hlast' : ∀ c ∈ as.getLast?, wsB c = false := by
      intro c hc
      cases as with
      | nil => cases hc
      | cons b bs => exact hlast c (by rwa [List.getLast?_cons_cons])
    cases st with
    | none =>
      simp only [splitRun] at hf
      split at hf
      · next ha =>
        have hne : as ≠ [] := by
          intro h0
          subst h0
          have := hlast a (by simp [List.getLast?])
          simp [this] at ha
        exact ih none hlast' hne f hf
      · exact ih (some [a]) hlast' (Or.inl (by simp)) f hf
    | some acc =>
      simp only [splitRun] at hf
      split at hf
      · next ha =>
        have hacc : acc ≠ [] := by
          rcases hst with h | h
          · exact h
          · have := h.1 a (by simp)
            simp [this] at ha
        rcases List.mem_cons.mp hf with rfl | hf'
        · simpa using hacc
        · have hne : as ≠ [] := by
            intro h0
            subst h0
            have := hlast a (by simp [List.getLast?])
            simp [this] at ha
          exact ih none hlast' hne f hf'
      · exact ih (some (a :: acc)) hlast' (Or.inl (by simp)) f hf

/-- The fields of a split of nonempty trimmed text are nonempty and
whitespace-free. -/
theorem jsSplitWS_fieldsOK {l : List Char}
    (h1 : ∀ c ∈ l.head?, wsB c = false)
    (h2 : ∀ c ∈ l.getLast?, wsB c = false) (hne : l ≠ []) :
    fieldsOK (jsSplitWS l) := by
  intro f hf
  refine ⟨splitRun_ne_nil l (some []) h2 (Or.inr ⟨h1, hne⟩) f hf, ?_⟩
  exact splitRun_wsFree l (some []) (by intro c hc; cases hc) f hf

/-- Append a suffix to the last field (used to model the ellipsis that
`enforceShort` glues onto the truncated word list). -/
def appLast (t : List Char) : List (List Char) → List (List Char)
  | [] => []
  | [w] => [w ++ t]
  | w :: ws => w :: appLast t ws

theorem joinSp_appLast (t : List Char) :
    ∀ ws : List (List Char), ws ≠ [] → joinSp (appLast t ws) = joinSp ws ++ t := by
  intro ws
  induction ws with
  | nil => intro h; cases h rfl
  | cons w rest ih =>
    intro _
    cases rest with
    | nil => simp [appLast, joinSp]
    | cons w2 rest2 =>
      have h1 : appLast t (w :: w2 :: rest2) = w :: appLast t (w2 :: rest2) := rfl
      have h2 : ∃ x xs, appLast t (w2 :: rest2) = x :: xs := by
        cases rest2 with
        | nil => exact ⟨w2 ++ t, [], rfl⟩
        | cons w3 rest3 => exact ⟨w2, appLast t (w3 :: rest3), rfl⟩
      obtain ⟨x, xs, hx⟩ := h2
      rw [h1, hx]
      show w ++ ' ' :: joinSp (x :: xs) = joinSp (w :: w2 :: rest2) ++ t
      rw [← hx, ih (by simp)]
      simp [joinSp]

theorem length_appLast (t : List Char) :
    ∀ ws : List (List Char), (appLast t ws).length = ws.length := by
  intro ws
  induction ws with
  | nil => rfl
  | cons w rest ih =>
    cases rest with
    | nil => rfl
    | cons w2 rest2 =>
      show (w :: appLast t (w2 :: rest2)).length = _
      simp only [List.length_cons] at *
      rw [ih]

theorem fieldsOK_appLast {t : List Char} (htw : ∀ c ∈ t, wsB c = false) :
    ∀ ws : List (List Char), fieldsOK ws → fieldsOK (appLast t ws) := by
  intro ws
  induction ws with
  | nil => intro _ f hf; cases hf
  | cons w rest ih =>
    intro hok f hf
    have hw := hok w (List.mem_cons_self _ _)
    cases rest with
    | nil =>
      rcases List.mem_singleton.mp hf with rfl
      refine ⟨by simp [hw.1], ?_⟩
      intro c hc
      rcases List.mem_append.mp hc with h | h
      · exact hw.2 c h
      · exact htw c h
    | cons w2 rest2 =>
      rcases List.mem_cons.mp hf with rfl | hf'
      · exact hw
      · exact ih (fun g hg => hok g (List.mem_cons_of_mem _ hg)) f hf'

theorem joinSp_head? (w : List Char) (ws : List (List Char)) (hw : w ≠ []) :
    (joinSp (w :: ws)).head? = w.head? := by
  cases ws with
  | nil => rfl
  | cons w2 rest2 =>
    show (w ++ ' ' :: joinSp (w2 :: rest2)).head? = w.head?
    cases w with
    | nil => exact absurd rfl hw
    | cons c cs => rfl

/-- **C6 (amended: for `maxWords ≥ 1`).**  `enforceShort(text, maxWords)`
returns at most `maxWords` words (counted the way the code counts,
by `trim` + `split(/\s+/)`); when the trimmed input has at most
`maxWords` words the output is exactly the trimmed input; otherwise the
output is exactly the first `maxWords` words joined by single spaces
with the ellipsis marker appended.  (At `maxWords = 0` the bound fails,
see the counterexample.) -/
theorem enforceShort_spec (t : List Char) (m : Nat) (hm : 1 ≤ m) :
    wordCount (enforceShortL t m) ≤ m ∧
      (wordCount t ≤ m → enforceShortL t m = trimWS t) ∧
      (m < wordCount t →
        enforceShortL t m = joinSp ((jsSplitWS (trimWS t)).take m) ++ ['…']) := by
  by_cases hle : (jsSplitWS (trimWS t)).length ≤ m
  · have hout : enforceShortL t m = trimWS t := by
      unfold enforceShortL
      rw [if_pos hle]
    refine ⟨?_, fun _ => hout, fun hlt => absurd hle (by simpa [wordCount] using hlt)⟩
    rw [hout]
    show (jsSplitWS (trimWS (trimWS t))).length ≤ m
    rw [trimWS_idem]
    exact hle
  · have hout : enforceShortL t m = joinSp ((jsSplitWS (trimWS t)).take m) ++ ['…'] := by
      unfold enforceShortL
      rw [if_neg hle]
    have hlt : m < (jsSplitWS (trimWS t)).length := Nat.lt_of_not_le hle
    refine ⟨?_, fun hc => absurd (by simpa [wordCount] using hc) hle, fun _ => hout⟩
    -- the trimmed input is nonempty: otherwise it has exactly one field
    have htne : trimWS t ≠ [] := by
      intro h0
      rw [h0] at hlt
      have : (jsSplitWS ([] : List Char)).length = 1 := rfl
      omega
    have hok : fieldsOK (jsSplitWS (trimWS t)) :=
      jsSplitWS_fieldsOK (trimWS_head t) (trimWS_getLast t) htne
    set ws0 := (jsSplitWS (trimWS t)).take m with hws0
    have hok0 : fieldsOK ws0 := fun f hf => hok f (List.take_subset m _ hf)
    have hlen0 : ws0.length = m := by
      rw [hws0, List.length_take]
      omega
    have hne0 : ws0 ≠ [] := by
      intro h0
      rw [h0] at hlen0
      simp at hlen0
      omega
    have hellip : ∀ c ∈ ['…'], wsB c = false := by decide
    set ws1 := appLast ['…'] ws0 with hws1
    have hok1 : fieldsOK ws1 := fieldsOK_appLast hellip ws0 hok0
    have hlen1 : ws1.length = m := by rw [hws1, length_appLast]; exact hlen0
    have hne1 : ws1 ≠ [] := by
      intro h0
      rw [h0] at hlen1
      simp at hlen1
      omega
    have hjoin : joinSp ws1 = joinSp ws0 ++ ['…'] := joinSp_appLast _ ws0 hne0
    rw [hout]
    show wordCount (joinSp ws0 ++ ['…']) ≤ m
    rw [← hjoin]
    -- the joined text is already trimmed
    obtain ⟨w1, rest1, hcons⟩ : ∃ w1 rest1, ws1 = w1 :: rest1 := by
      cases hx : ws1 with
      | nil => exact absurd hx hne1
      | cons a b => exact ⟨a, b, rfl⟩
    have hw1 := hok1 w1 (hcons ▸ List.mem_cons_self _ _)
    have hhead : ∀ c ∈ (joinSp ws1).head?, wsB c = false := by
      intro c hc
      rw [hcons, joinSp_head? w1 rest1 hw1.1] at hc
      cases w1 with
      | nil => cases hc
      | cons a as =>
        simp only [List.head?_cons, Option.mem_def, Option.some.injEq] at hc
        subst hc
        exact hw1.2 _ (List.mem_cons_self _ _)
    have hlast : ∀ c ∈ (joinSp ws1).getLast?, wsB c = false := by
      intro c hc
      rw [hjoin, List.getLast?_append_of_ne_nil _ (by simp)] at hc
      simp only [List.getLast?_singleton, Option.mem_def, Option.some.injEq] at hc
      subst hc
      decide
    have htrim : trimWS (joinSp ws1) = joinSp ws1 := trimWS_eq_self hhead hlast
    show (jsSplitWS (trimWS (joinSp ws1))).length ≤ m
    rw [htrim, jsSplitWS_joinSp ws1 hne1 hok1, hlen1]

/-- **C6, counterexample to the claim as stated.**  The claim quantifies
over every `maxWords`; at `maxWords = 0` the function returns "…",
which is one word, not zero, and differs from the trimmed input. -/
theorem enforceShort_claim_cex :
    enforceShort "hi" 0 = "…" ∧ ¬ wordCount (enforceShortL "hi".data 0) ≤ 0 := by
  constructor
  · rfl
  · decide

/-- Witness for `enforceShort_spec` at `text = "one two three"`,
`maxWords = 2`. -/
theorem enforceShort_spec_witness :
    wordCount (enforceShortL "one two three".data 2) ≤ 2 ∧
      (wordCount "one two three".data ≤ 2 →
        enforceShortL "one two three".data 2 = trimWS "one two three".data) ∧
      (2 < wordCount "one two three".data →
        enforceShortL "one two three".data 2 =
          joinSp ((jsSplitWS (trimWS "one two three".data)).take 2) ++ ['…']) :=
  enforceShort_spec "one two three".data 2 (by decide)

/-! ### `enforceThirdPerson`

`server.js` lines 295–304: seven chained
`replace(/\bPAT\b/gi, rep)` passes.  Every pattern begins and ends with
a word character, so the `\b` anchors amount to: the previous original
character is not a word character, and the character following the
match is not a word character. -/

/-- Case-insensitive prefix test (the `i` flag). -/
def ciStarts : List Char → List Char → Bool
  | [], _ => true
  | _ :: _, [] => false
  | p :: ps, c :: cs => ciEq p c && ciStarts ps cs

/-- Closing `\b`: the character after the matched region (here: after
dropping `n` characters of the tail) is absent or not a word character. -/
def wbAfter (n : Nat) (l : List Char) : Bool :=
  match l.drop n with
  | [] => true
  | c :: _ => !wordB c

/-- Fuelled scanner for `replace(/\bp ps\b/gi, rep)`: scan the original
text left to right, tracking whether the previous original character is
a word character; on a boundary-delimited case-insensitive match emit
the replacement and continue after the matched region (JavaScript does
not rescan the replacement), otherwise copy one character.  The fuel
only forces structural recursion; `gRepl` supplies enough of it. -/
def gReplF (p : Char) (ps rep : List Char) : Nat → Bool → List Char → List Char
  | 0, _, _ => []
  | _, _, [] => []
  | fuel + 1, prevW, c :: cs =>
    if !prevW && ciEq p c && ciStarts ps cs && wbAfter ps.length cs then
      rep ++ gReplF p ps rep fuel (wordB ((cs.take ps.length).getLastD c)) (cs.drop ps.length)
    else
      c :: gReplF p ps rep fuel (wordB c) cs

def gRepl (p : Char) (ps rep : List Char) (w : Bool) (l : List Char) : List Char :=
  gReplF p ps rep l.length w l

theorem gReplF_fuel (p : Char) (ps rep : List Char) :
    ∀ (fuel : Nat) (w : Bool) (l : List Char), l.length ≤ fuel →
      gReplF p ps rep fuel w l = gReplF p ps rep l.length w l := by
  intro fuel
  induction fuel using Nat.strong_induction_on with
  | _ fuel ih =>
    intro w l hl
    match fuel, l with
    | 0, l =>
      have : l = [] := List.length_eq_zero.mp (Nat.le_zero.mp hl)
      subst this
      rfl
    | fuel + 1, [] => rfl
    | fuel + 1, c :: cs =>
      simp only [List.length_cons] at hl
      have hcs : cs.length ≤ fuel := by omega
      show gReplF p ps rep (fuel + 1) w (c :: cs) = gReplF p ps rep (cs.length + 1) w (c :: cs)
      simp only [gReplF]
      split
      · congr 1
        have hd : (cs.drop ps.length).length ≤ cs.length := by
          simp only [List.length_drop]; omega
        rw [ih fuel (by omega) _ _ (le_trans hd hcs)]
        rw [ih cs.length (by omega) _ _ hd]
      · congr 1
        rw [ih fuel (by omega) _ _ hcs]

theorem gRepl_nil (p : Char) (ps rep : List Char) (w : Bool) :
    gRepl p ps rep w [] = [] := rfl

/-- The defining equation of the scanner on a cons cell. -/
theorem gRepl_cons (p : Char) (ps rep : List Char) (w : Bool) (c : Char) (cs : List Char) :
    gRepl p ps rep w (c :: cs) =
      if !w && ciEq p c && ciStarts ps cs && wbAfter ps.length cs then
        rep ++ gRepl p ps rep (wordB ((cs.take ps.length).getLastD c)) (cs.drop ps.length)
      else
        c :: gRepl p ps rep (wordB c) cs := by
  show gReplF p ps rep (cs.length + 1) w (c :: cs) = _
  simp only [gReplF]
  split
  · unfold gRepl
    rw [gReplF_fuel p ps rep cs.length _ _ (by simp only [List.length_drop]; omega)]
  · rfl

/-- One global word-bounded case-insensitive replace. -/
def jsReplaceWB (pat rep l : List Char) : List Char :=
  match pat with
  | [] => l
  | p :: ps => gRepl p ps rep false l

/-- `enforceThirdPerson` from `server.js` lines 295–304 (the seven
replaces, applied in source order, innermost first). -/
def enforceThirdPersonL (t : List Char) : List Char :=
  jsReplaceWB "me".data "her".data
    (jsReplaceWB "my".data "her".data
      (jsReplaceWB "I".data "She".data
        (jsReplaceWB "I’ve".data "She has".data
          (jsReplaceWB "I have".data "She has".data
            (jsReplaceWB "I was".data "She was".data
              (jsReplaceWB "I am".data "She is".data t))))))

def enforceThirdPerson (s : String) : String := ⟨enforceThirdPersonL s.data⟩

example : enforceThirdPerson "I am here and I’ve seen my way" =
    "She is here and She has seen her way" := by decide

example : enforceThirdPerson "Memo to time" = "Memo to time" := by decide

theorem wsB_cases {c : Char} (h : wsB c = true) :
    c = ' ' ∨ c = '\t' ∨ c = '\n' ∨ c = '\r' ∨ c = '\x0b' ∨ c = '\x0c' := by
  simp [wsB] at h
  tauto

theorem word_not_ws {c : Char} (h : wordB c = true) : wsB c = false := by
  by_contra hc
  have hw : wsB c = true := by simpa using hc
  rcases wsB_cases hw with rfl | rfl | rfl | rfl | rfl | rfl <;>
    exact absurd h (by decide)

/-- A word character never matches a whitespace character, even
case-insensitively. -/
theorem ciEq_word_ws {p c : Char} (hp : wordB p = true) (hc : wsB c = true) :
    ciEq p c = false := by
  by_contra h
  have he : jsLower p = jsLower c := by
    have : ciEq p c = true := by simpa using h
    simpa [ciEq] using this
  have h1 : wsB (jsLower p) = wsB p := wsB_jsLower p
  rw [he, wsB_jsLower c] at h1
  rw [hc, word_not_ws hp] at h1
  cases h1

/-- The scanner copies all-whitespace text unchanged (patterns start with
a word character). -/
theorem gRepl_allWS {p : Char} (ps rep : List Char) (hp : wordB p = true) :
    ∀ ws : List Char, (∀ c ∈ ws, wsB c = true) → ∀ w,
      gRepl p ps rep w ws = ws := by
  intro ws
  induction ws with
  | nil => intro _ w; rfl
  | cons c cs ih =>
    intro h w
    have hc : wsB c = true := h c (List.mem_cons_self _ _)
    rw [gRepl_cons, ciEq_word_ws hp hc]
    simp only [Bool.and_false, Bool.false_and, Bool.false_eq_true, if_false]
    rw [ih (fun d hd => h d (List.mem_cons_of_mem _ hd)) _]

/-- Leading whitespace passes through the scanner and leaves it outside a
word. -/
theorem gRepl_ws_left {p : Char} (ps rep : List Char) (hp : wordB p = true) :
    ∀ (ws l : List Char), (∀ c ∈ ws, wsB c = true) →
      gRepl p ps rep false (ws ++ l) = ws ++ gRepl p ps rep false l := by
  intro ws l
  induction ws with
  | nil => intro _; rfl
  | cons c cs ih =>
    intro h
    have hc : wsB c = true := h c (List.mem_cons_self _ _)
    rw [List.cons_append, gRepl_cons, ciEq_word_ws hp hc]
    simp only [Bool.and_false, Bool.false_and, Bool.false_eq_true, if_false]
    have hcw : wordB c = false := by
      by_contra hq
      have : wordB c = true := by simpa using hq
      rw [word_not_ws this] at hc
      cases hc
    rw [hcw, ih (fun d hd => h d (List.mem_cons_of_mem _ hd))]
    rfl

theorem ciStarts_length : ∀ (ps cs : List Char), ciStarts ps cs = true →
    ps.length ≤ cs.length := by
  intro ps
  induction ps with
  | nil => intro cs _; simp
  | cons q qs ih =>
    intro cs h
    cases cs with
    | nil => cases h
    | cons c cs' =>
      simp only [ciStarts, Bool.and_eq_true] at h
      simp only [List.length_cons]
      exact Nat.succ_le_succ (ih cs' h.2)

/-- A pattern ending in a word character never matches inside pure
whitespace. -/
theorem ciStarts_ws_false :
    ∀ (p : Char) (ps : List Char), wordB (ps.getLastD p) = true →
      ∀ ws, (∀ c ∈ ws, wsB c = true) → ciStarts (p :: ps) ws = false := by
  intro p ps
  induction ps generalizing p with
  | nil =>
    intro hlast ws h
    cases ws with
    | nil => rfl
    | cons c cs =>
      have hc : wsB c = true := h c (List.mem_cons_self _ _)
      have hp : wordB p = true := hlast
      simp [ciStarts, ciEq_word_ws hp hc]
  | cons q qs ih =>
    intro hlast ws h
    cases ws with
    | nil => rfl
    | cons c cs =>
      have hl' : wordB (qs.getLastD q) = true := by
        rw [List.getLastD_cons] at hlast
        exact hlast
      have := ih q hl' cs (fun d hd => h d (List.mem_cons_of_mem _ hd))
      simp [ciStarts, this]

/-- Appending whitespace to the text does not change whether a pattern
ending in a word character matches at the front. -/
theorem ciStarts_append_ws :
    ∀ (xs : List Char) (p : Char) (ps : List Char),
      wordB (ps.getLastD p) = true →
      ∀ ws, (∀ c ∈ ws, wsB c = true) →
      ciStarts (p :: ps) (xs ++ ws) = ciStarts (p :: ps) xs := by
  intro xs
  induction xs with
  | nil =>
    intro p ps hlast ws h
    rw [List.nil_append, ciStarts_ws_false p ps hlast ws h]
    rfl
  | cons x xs' ih =>
    intro p ps hlast ws h
    rw [List.cons_append]
    show (ciEq p x && ciStarts ps (xs' ++ ws)) = (ciEq p x && ciStarts ps xs')
    cases ps with
    | nil => rfl
    | cons q qs =>
      have hl' : wordB (qs.getLastD q) = true := by
        rw [List.getLastD_cons] at hlast
        exact hlast
      rw [ih q qs hl' ws h]

theorem ws_not_word {c : Char} (h : wsB c = true) : wordB c = false := by
  by_contra hq
  have hw : wordB c = true := by simpa using hq
  rw [word_not_ws hw] at h
  cases h

theorem head?_append_left {α : Type} {X : List α} (b : List α) (hX : X ≠ []) :
    (X ++ b).head? = X.head? := by
  cases X with
  | nil => exact absurd rfl hX
  | cons a as => rfl

/-- Trailing whitespace passes through the scanner unchanged: no match of
a pattern with word-character edges can reach into it. -/
theorem gRepl_ws_right {p : Char} (ps rep : List Char) (hp : wordB p = true)
    (hlast : wordB (ps.getLastD p) = true) :
    ∀ (l ws : List Char) (w : Bool), (∀ c ∈ ws, wsB c = true) →
      gRepl p ps rep w (l ++ ws) = gRepl p ps rep w l ++ ws := by
  suffices H : ∀ (n : Nat) (l ws : List Char) (w : Bool), l.length ≤ n →
      (∀ c ∈ ws, wsB c = true) →
      gRepl p ps rep w (l ++ ws) = gRepl p ps rep w l ++ ws by
    intro l ws w hws
    exact H l.length l ws w (Nat.le_refl _) hws
  intro n
  induction n with
  | zero =>
    intro l ws w hl hws
    have : l = [] := List.length_eq_zero.mp (Nat.le_zero.mp hl)
    subst this
    simpa using gRepl_allWS ps rep hp ws hws w
  | succ n ih =>
    intro l ws w hl hws
    cases l with
    | nil => simpa using gRepl_allWS ps rep hp ws hws w
    | cons c cs =>
      simp only [List.length_cons] at hl
      have hcs : cs.length ≤ n := by omega
      rw [List.cons_append, gRepl_cons, gRepl_cons]
      by_cases hS : ciStarts ps cs = true
      · have hlen : ps.length ≤ cs.length := ciStarts_length ps cs hS
        have hSeq : ciStarts ps (cs ++ ws) = ciStarts ps cs := by
          cases ps with
          | nil => rfl
          | cons q qs =>
            refine ciStarts_append_ws cs q qs ?_ ws hws
            rw [List.getLastD_cons] at hlast
            exact hlast
        have hdrop : (cs ++ ws).drop ps.length = cs.drop ps.length ++ ws := by
          rw [List.drop_append_eq_append_drop, Nat.sub_eq_zero_of_le hlen, List.drop_zero]
        have htake : (cs ++ ws).take ps.length = cs.take ps.length := by
          rw [List.take_append_eq_append_take, Nat.sub_eq_zero_of_le hlen,
            List.take_zero, List.append_nil]
        have hwb : wbAfter ps.length (cs ++ ws) = wbAfter ps.length cs := by
          unfold wbAfter
          rw [hdrop]
          cases hd : cs.drop ps.length with
          | nil =>
            simp only [List.nil_append]
            cases hw2 : ws with
            | nil => rfl
            | cons a as =>
              have ha : wsB a = true := hws a (by rw [hw2]; exact List.mem_cons_self _ _)
              show (!wordB a) = true
              rw [ws_not_word ha]
              rfl
          | cons d ds => rfl
        rw [hSeq, hwb, htake, hdrop]
        by_cases hT : (!w && ciEq p c && ciStarts ps cs && wbAfter ps.length cs) = true
        · rw [if_pos hT, if_pos hT]
          have hdl : (cs.drop ps.length).length ≤ n := by
            simp only [List.length_drop]
            omega
          rw [ih _ ws _ hdl hws, List.append_assoc]
        · rw [if_neg hT, if_neg hT, ih _ ws _ hcs hws]
          rfl
      · have hS' : ciStarts ps cs = false := by simpa using hS
        have hSeq : ciStarts ps (cs ++ ws) = false := by
          cases ps with
          | nil => simp [ciStarts] at hS'
          | cons q qs =>
            rw [ciStarts_append_ws cs q qs ?_ ws hws]
            · exact hS'
            · rw [List.getLastD_cons] at hlast
              exact hlast
        rw [hS', hSeq]
        simp only [Bool.and_false, Bool.false_and, Bool.false_eq_true, if_false]
        rw [ih _ ws _ hcs hws]
        rfl

/-- The scanner keeps a non-whitespace first character (replacements
start with a non-whitespace character). -/
theorem gRepl_head {p : Char} (ps rep : List Char) (hrepne : rep ≠ [])
    (hrh : ∀ c ∈ rep.head?, wsB c = false) :
    ∀ (l : List Char) (w : Bool), l ≠ [] → (∀ c ∈ l.head?, wsB c = false) →
      gRepl p ps rep w l ≠ [] ∧ ∀ c ∈ (gRepl p ps rep w l).head?, wsB c = false := by
  intro l w hne hh
  cases l with
  | nil => exact absurd rfl hne
  | cons c cs =>
    rw [gRepl_cons]
    split
    · constructor
      · simp [hrepne]
      · intro d hd
        rw [head?_append_left _ hrepne] at hd
        exact hrh d hd
    · constructor
      · simp
      · intro d hd
        simp only [List.head?_cons, Option.mem_def, Option.some.injEq] at hd
        subst hd
        exact hh _ (by simp)

/-- The scanner keeps a non-whitespace last character (replacements end
with a non-whitespace character). -/
theorem gRepl_last {p : Char} (ps rep : List Char) (hrepne : rep ≠ [])
    (hrl : ∀ c ∈ rep.getLast?, wsB c = false) :
    ∀ (l : List Char) (w : Bool), l ≠ [] → (∀ c ∈ l.getLast?, wsB c = false) →
      gRepl p ps rep w l ≠ [] ∧
        ∀ c ∈ (gRepl p ps rep w l).getLast?, wsB c = false := by
  suffices H : ∀ (n : Nat) (l : List Char) (w : Bool), l.length ≤ n → l ≠ [] →
      (∀ c ∈ l.getLast?, wsB c = false) →
      gRepl p ps rep w l ≠ [] ∧
        ∀ c ∈ (gRepl p ps rep w l).getLast?, wsB c = false by
    intro l w hne hl
    exact H l.length l w (Nat.le_refl _) hne hl
  intro n
  induction n with
  | zero =>
    intro l w hl hne _
    have : l = [] := List.length_eq_zero.mp (Nat.le_zero.mp hl)
    exact absurd this hne
  | succ n ih =>
    intro l w hl hne hlast
    cases l with
    | nil => exact absurd rfl hne
    | cons c cs =>
      simp only [List.length_cons] at hl
      have hcs : cs.length ≤ n := by omega
      rw [gRepl_cons]
      split
      · by_cases hrest : cs.drop ps.length = []
        · rw [hrest, gRepl_nil, List.append_nil]
          exact ⟨hrepne, hrl⟩
        · have hrne : cs.drop ps.length ≠ [] := hrest
          have hrlast : ∀ e ∈ (cs.drop ps.length).getLast?, wsB e = false := by
            intro e he
            apply hlast
            have hsplit : c :: cs = (c :: cs.take ps.length) ++ cs.drop ps.length := by
              simp [List.take_append_drop]
            rw [hsplit, List.getLast?_append_of_ne_nil _ hrne]
            exact he
          have hdl : (cs.drop ps.length).length ≤ n := by
            simp only [List.length_drop]
            omega
          obtain ⟨hne2, hl2⟩ := ih (cs.drop ps.length)
            (wordB ((cs.take ps.length).getLastD c)) hdl hrne hrlast
          constructor
          · intro hx
            exact hne2 (List.append_eq_nil.mp hx).2
          · intro e he
            rw [List.getLast?_append_of_ne_nil _ hne2] at he
            exact hl2 e he
      · by_cases hcs0 : cs = []
        · subst hcs0
          rw [gRepl_nil]
          refine ⟨by simp, ?_⟩
          intro e he
          simp only [List.getLast?_singleton, Option.mem_def, Option.some.injEq] at he
          subst he
          exact hlast _ (by simp [List.getLast?])
        · have hcne : cs ≠ [] := hcs0
          have hclast : ∀ e ∈ cs.getLast?, wsB e = false := by
            intro e he
            apply hlast
            rw [show c :: cs = [c] ++ cs from rfl, List.getLast?_append_of_ne_nil _ hcne]
            exact he
          obtain ⟨hne2, hl2⟩ := ih cs (wordB c) hcs hcne hclast
          constructor
          · simp
          · intro e he
            have : (c :: gRepl p ps rep (wordB c) cs).getLast? =
                (gRepl p ps rep (wordB c) cs).getLast? := by
              have hx : c :: gRepl p ps rep (wordB c) cs =
                  [c] ++ gRepl p ps rep (wordB c) cs := rfl
              rw [hx, List.getLast?_append_of_ne_nil _ hne2]
            rw [this] at he
            exact hl2 e he

theorem dropWhile_append_all {α : Type} {p : α → Bool} :
    ∀ (a b : List α), (∀ c ∈ a, p c = true) → (a ++ b).dropWhile p = b.dropWhile p := by
  intro a b
  induction a with
  | nil => intro _; rfl
  | cons x xs ih =>
    intro h
    rw [List.cons_append, List.dropWhile_cons_of_pos (h x (List.mem_cons_self _ _)),
      ih (fun c hc => h c (List.mem_cons_of_mem _ hc))]

/-- Trimming a text made of leading whitespace, a trimmed core, and
trailing whitespace recovers the core. -/
theorem trim_sandwich {ws1 X ws2 : List Char}
    (h1 : ∀ c ∈ ws1, wsB c = true) (h2 : ∀ c ∈ ws2, wsB c = true)
    (hX : X ≠ []) (hh : ∀ c ∈ X.head?, wsB c = false)
    (hl : ∀ c ∈ X.getLast?, wsB c = false) :
    trimWS (ws1 ++ (X ++ ws2)) = X := by
  unfold trimWS
  rw [dropWhile_append_all ws1 _ h1]
  have hXa : (X ++ ws2).dropWhile wsB = X ++ ws2 := by
    apply dropWhile_eq_self_of_head
    rw [head?_append_left _ hX]
    exact hh
  rw [hXa, List.reverse_append]
  rw [dropWhile_append_all ws2.reverse _ (fun c hc => h2 c (List.mem_reverse.mp hc))]
  rw [dropWhile_eq_self_of_head (by rw [List.head?_reverse]; exact hl)]
  exact List.reverse_reverse X

/-- The scanner commutes with trimming: matches can neither start in the
leading whitespace nor reach into the trailing whitespace, and the `\b`
state entering the core is `false` either way. -/
theorem gRepl_trim_comm {p : Char} (ps rep : List Char)
    (hp : wordB p = true) (hlast : wordB (ps.getLastD p) = true)
    (hrepne : rep ≠ []) (hrh : ∀ c ∈ rep.head?, wsB c = false)
    (hrl : ∀ c ∈ rep.getLast?, wsB c = false) (l : List Char) :
    trimWS (gRepl p ps rep false l) = gRepl p ps rep false (trimWS l) := by
  have hdec := trim_decomp l
  have hws1 : ∀ c ∈ l.takeWhile wsB, wsB c = true :=
    fun c hc => List.mem_takeWhile_imp hc
  have hws2 : ∀ c ∈ ((l.dropWhile wsB).reverse.takeWhile wsB).reverse, wsB c = true :=
    fun c hc => List.mem_takeWhile_imp (List.mem_reverse.mp hc)
  by_cases hcore : trimWS l = []
  · have hall : ∀ c ∈ l, wsB c = true := by
      intro c hc
      rw [← hdec] at hc
      rcases List.mem_append.mp hc with h | h
      · exact hws1 c h
      · rcases List.mem_append.mp h with h' | h'
        · rw [hcore] at h'; cases h'
        · exact hws2 c h'
    rw [gRepl_allWS ps rep hp l hall false, hcore, gRepl_nil]
  · conv_lhs => rw [← hdec]
    rw [gRepl_ws_left ps rep hp _ _ hws1]
    rw [gRepl_ws_right ps rep hp hlast _ _ false hws2]
    obtain ⟨hne2, hh2⟩ :=
      gRepl_head ps rep hrepne hrh (trimWS l) false hcore (trimWS_head l)
    obtain ⟨_, hl2⟩ :=
      gRepl_last ps rep hrepne hrl (trimWS l) false hcore (trimWS_getLast l)
    exact trim_sandwich hws1 hws2 hne2 hh2 hl2

/-- `replace(/\bpat\b/gi, rep)` commutes with trimming, for any pattern
with word-character edges and any replacement with non-whitespace
edges. -/
theorem jsReplaceWB_trim_comm (pat rep : List Char) (hne : pat ≠ [])
    (hph : wordB (pat.headD 'x') = true) (hpl : wordB (pat.getLastD 'x') = true)
    (hrepne : rep ≠ []) (hrh : ∀ c ∈ rep.head?, wsB c = false)
    (hrl : ∀ c ∈ rep.getLast?, wsB c = false) (l : List Char) :
    trimWS (jsReplaceWB pat rep l) = jsReplaceWB pat rep (trimWS l) := by
  cases pat with
  | nil => exact absurd rfl hne
  | cons p ps =>
    have hp : wordB p = true := hph
    have hlast : wordB (ps.getLastD p) = true := by
      rw [List.getLastD_cons] at hpl
      exact hpl
    exact gRepl_trim_comm ps rep hp hlast hrepne hrh hrl l

/-- `enforceThirdPerson` commutes with trimming. -/
theorem thirdPerson_trim_comm (t : List Char) :
    trimWS (enforceThirdPersonL t) = enforceThirdPersonL (trimWS t) := by
  unfold enforceThirdPersonL
  rw [jsReplaceWB_trim_comm "me".data "her".data (by decide) (by decide) (by decide)
    (by decide) (by decide) (by decide)]
  rw [jsReplaceWB_trim_comm "my".data "her".data (by decide) (by decide) (by decide)
    (by decide) (by decide) (by decide)]
  rw [jsReplaceWB_trim_comm "I".data "She".data (by decide) (by decide) (by decide)
    (by decide) (by decide) (by decide)]
  rw [jsReplaceWB_trim_comm "I’ve".data "She has".data (by decide) (by decide) (by decide)
    (by decide) (by decide) (by decide)]
  rw [jsReplaceWB_trim_comm "I have".data "She has".data (by decide) (by decide) (by decide)
    (by decide) (by decide) (by decide)]
  rw [jsReplaceWB_trim_comm "I was".data "She was".data (by decide) (by decide) (by decide)
    (by decide) (by decide) (by decide)]
  rw [jsReplaceWB_trim_comm "I am".data "She is".data (by decide) (by decide) (by decide)
    (by decide) (by decide) (by decide)]

/-- **C7, counterexample to the claim as stated.**  The two
output-normalization passes do not commute in general: on "I’ve x" with
cap 1, third-person-then-truncate yields "She…" while
truncate-then-third-person yields "She has…". -/
theorem thirdPerson_short_comm_cex :
    enforceShortL (enforceThirdPersonL "I’ve x".data) 1 ≠
      enforceThirdPersonL (enforceShortL "I’ve x".data 1) := by
  decide

/-- **C7 (amended).**  The two passes commute whenever no truncation
occurs, i.e. when both the input and its third-person rewrite are within
the word cap; both orders then yield the trimmed third-person rewrite.
When truncation occurs they can differ (see the counterexample):
the code applies `enforceShort(enforceThirdPerson(t), maxWords)`. -/
theorem thirdPerson_short_comm (t : List Char) (m : Nat)
    (h1 : wordCount t ≤ m) (h2 : wordCount (enforceThirdPersonL t) ≤ m) :
    enforceShortL (enforceThirdPersonL t) m =
      enforceThirdPersonL (enforceShortL t m) := by
  have h1' : (jsSplitWS (trimWS t)).length ≤ m := h1
  have h2' : (jsSplitWS (trimWS (enforceThirdPersonL t))).length ≤ m := h2
  have hL : enforceShortL (enforceThirdPersonL t) m = trimWS (enforceThirdPersonL t) := by
    unfold enforceShortL
    rw [if_pos h2']
  have hR : enforceShortL t m = trimWS t := by
    unfold enforceShortL
    rw [if_pos h1']
  rw [hL, hR, thirdPerson_trim_comm]

/-- Witness for `thirdPerson_short_comm` at `t = "I am ok"`, `m = 9`. -/
theorem thirdPerson_short_comm_witness :
    wordCount "I am ok".data ≤ 9 ∧
      wordCount (enforceThirdPersonL "I am ok".data) ≤ 9 ∧
      enforceShortL (enforceThirdPersonL "I am ok".data) 9 =
        enforceThirdPersonL (enforceShortL "I am ok".data 9) :=
  ⟨by decide, by decide, thirdPerson_short_comm "I am ok".data 9 (by decide) (by decide)⟩

/-! ### `pickVariant` (`server.js` lines 269–285)

A fixed ordered pool of style directives and a per-question rotation
counter (`rrMap`). -/

structure Variant where
  vid : List Char
  instructions : List Char
deriving DecidableEq

/-- The `VARIANTS` pool of `server.js` lines 269–274. -/
def VARIANTS : List Variant :=
  [⟨"bullets3".data, "Answer in 3 tight bullets (10–16 words each). No intro/outro.".data⟩,
   ⟨"impactBullets".data, "Provide 2 action bullets + 1 outcome bullet. Max 16 words each.".data⟩,
   ⟨"twoSentences".data, "Answer in 2 compact sentences, max 40 words total. No list formatting.".data⟩,
   ⟨"shortPara".data, "One short paragraph, 2–3 sentences with strong verbs; avoid filler.".data⟩]

/-- The pool selected by `pickVariant`: the two bullet variants when
`preferBullets`, the full pool otherwise. -/
def pickPool (preferBullets : Bool) : List Variant :=
  if preferBullets then
    VARIANTS.filter (fun v => v.vid == "bullets3".data || v.vid == "impactBullets".data)
  else VARIANTS

/-- The rotation key: `(question || '').trim().toLowerCase()`. -/
def pickKey (question : List Char) : List Char := (trimWS question).map jsLower

/-- `pickVariant` from `server.js` lines 277–285, with the mutable
`rrMap` passed as explicit state (a total map, absent keys at 0, exactly
`rrMap.get(key) || 0`). -/
def pickVariant (rr : List Char → Nat) (question : List Char) (preferBullets : Bool) :
    Variant × (List Char → Nat) :=
  let pool := pickPool preferBullets
  let key := pickKey question
  let n := rr key + 1
  (pool.getD ((n - 1) % pool.length) ⟨[], []⟩,
   fun k => if k = key then n else rr k)

/-- The `rrMap` state after `k` calls for the same question. -/
def pickIter (rr : List Char → Nat) (q : List Char) (pb : Bool) : Nat → (List Char → Nat)
  | 0 => rr
  | k + 1 => (pickVariant (pickIter rr q pb k) q pb).2

/-- The directive returned by call number `k` (`k ≥ 1`). -/
def pickNth (rr : List Char → Nat) (q : List Char) (pb : Bool) (k : Nat) : Variant :=
  (pickVariant (pickIter rr q pb (k - 1)) q pb).1

theorem pickIter_key (rr : List Char → Nat) (q : List Char) (pb : Bool)
    (h0 : rr (pickKey q) = 0) :
    ∀ j, pickIter rr q pb j (pickKey q) = j := by
  intro j
  induction j with
  | zero => exact h0
  | succ j ih =>
    show (pickVariant (pickIter rr q pb j) q pb).2 (pickKey q) = j + 1
    simp [pickVariant, ih]

theorem pickNth_eq (rr : List Char → Nat) (q : List Char) (pb : Bool)
    (h0 : rr (pickKey q) = 0) (k : Nat) (hk : 1 ≤ k) :
    pickNth rr q pb k = (pickPool pb).getD ((k - 1) % (pickPool pb).length) ⟨[], []⟩ := by
  simp only [pickNth, pickVariant]
  rw [pickIter_key rr q pb h0 (k - 1)]
  simp

/-- **C8.**  For a question whose rotation counter is fresh, call `k` of
`pickVariant` returns the `(k − 1) mod P`-th directive of the selected
pool of size `P`, and call `P + 1` returns the same directive as call
1: the selector cycles deterministically through the pool in order. -/
theorem pickVariant_cycles (rr : List Char → Nat) (q : List Char) (pb : Bool)
    (h0 : rr (pickKey q) = 0) (k : Nat) (hk : 1 ≤ k) :
    pickNth rr q pb k = (pickPool pb).getD ((k - 1) % (pickPool pb).length) ⟨[], []⟩ ∧
      pickNth rr q pb ((pickPool pb).length + 1) = pickNth rr q pb 1 := by
  refine ⟨pickNth_eq rr q pb h0 k hk, ?_⟩
  rw [pickNth_eq rr q pb h0 _ (by omega), pickNth_eq rr q pb h0 1 (by omega)]
  simp [Nat.mod_self]

/-- Witness for `pickVariant_cycles` on a fresh map, `q = "hi"`,
`preferBullets = false`, `k = 1`. -/
theorem pickVariant_cycles_witness :
    (fun _ : List Char => 0) (pickKey "hi".data) = 0 ∧
      (pickNth (fun _ => 0) "hi".data false 1 =
          (pickPool false).getD ((1 - 1) % (pickPool false).length) ⟨[], []⟩ ∧
        pickNth (fun _ => 0) "hi".data false ((pickPool false).length + 1) =
          pickNth (fun _ => 0) "hi".data false 1) :=
  ⟨rfl, pickVariant_cycles (fun _ => 0) "hi".data false rfl 1 (by omega)⟩

/-! ### Session history (`server.js` lines 596–615 and 797–800)

`conversations` maps a session id to its turn list; each completed turn
pushes the user turn and the assistant turn and then truncates to the
most recent 20 entries with `splice(0, history.length - 20)`. -/

structure Turn where
  role : List Char
  content : List Char
deriving DecidableEq

/-- `conversations.get(sid)` after the lazy-create of lines 612–614:
an absent session id yields the empty list. -/
def getOrCreate (m : List (List Char × List Turn)) (sid : List Char) : List Turn :=
  ((m.find? (fun e => e.1 == sid)).map Prod.snd).getD []

/-- One completed turn: push both entries, then truncate to 20. -/
def historyUpdate (h : List Turn) (u a : Turn) : List Turn :=
  let h2 := h ++ [u, a]
  if 20 < h2.length then h2.drop (h2.length - 20) else h2

/-- The most recent `n` entries. -/
def lastN (n : Nat) (l : List Turn) : List Turn := l.drop (l.length - n)

/-- The history after a sequence of completed turns, starting from the
lazily created empty list. -/
def histAfter (ps : List (Turn × Turn)) : List Turn :=
  ps.foldl (fun h p => historyUpdate h p.1 p.2) []

theorem historyUpdate_eq_lastN (h : List Turn) (u a : Turn) :
    historyUpdate h u a = lastN 20 (h ++ [u, a]) := by
  simp only [historyUpdate, lastN]
  split
  · rfl
  · next hle =>
    have h0 : (h ++ [u, a]).length - 20 = 0 := by omega
    rw [h0, List.drop_zero]

theorem lastN_length (n : Nat) (l : List Turn) :
    (lastN n l).length = min n l.length := by
  unfold lastN
  rw [List.length_drop]
  omega

/-- Dropping a prefix before taking the last `n` entries changes nothing
once the remainder has at least `n` entries. -/
theorem lastN_append_absorb (n : Nat) (a b : List Turn) (h : n ≤ b.length) :
    lastN n (a ++ b) = lastN n b := by
  unfold lastN
  rw [List.length_append, List.drop_append_eq_append_drop]
  have h1 : a.drop (a.length + b.length - n) = [] := by
    apply List.drop_eq_nil_of_le
    omega
  rw [h1, List.nil_append]
  congr 1
  omega

theorem lastN_lastN_append (n : Nat) (y x : List Turn) :
    lastN n (lastN n y ++ x) = lastN n (y ++ x) := by
  by_cases hy : y.length ≤ n
  · have : lastN n y = y := by
      unfold lastN
      rw [Nat.sub_eq_zero_of_le hy, List.drop_zero]
    rw [this]
  · have hlen : (lastN n y).length = n := by
      rw [lastN_length]
      omega
    have hy2 : y = y.take (y.length - n) ++ lastN n y := (List.take_append_drop _ y).symm
    conv_rhs => rw [hy2, List.append_assoc]
    rw [lastN_append_absorb n (y.take (y.length - n)) (lastN n y ++ x)
      (by rw [List.length_append, hlen]; omega)]

theorem histAfter_foldl (ps : List (Turn × Turn)) :
    ∀ h : List Turn, h.length ≤ 20 →
      ps.foldl (fun h p => historyUpdate h p.1 p.2) h =
        lastN 20 (h ++ ps.flatMap (fun p => [p.1, p.2])) := by
  induction ps with
  | nil =>
    intro h hle
    simp only [List.foldl_nil, List.flatMap_nil, List.append_nil]
    unfold lastN
    rw [Nat.sub_eq_zero_of_le hle, List.drop_zero]
  | cons p ps ih =>
    intro h hle
    simp only [List.foldl_cons, List.flatMap_cons]
    have hlen : (historyUpdate h p.1 p.2).length ≤ 20 := by
      rw [historyUpdate_eq_lastN, lastN_length]
      omega
    rw [ih _ hlen, historyUpdate_eq_lastN]
    rw [lastN_lastN_append]
    rw [← List.append_assoc]

/-- **C9.**  The session history is created empty on first access, grows
by exactly the two pushed entries per completed turn and is then
truncated FIFO to the most recent 20 entries: after any sequence of
completed turns it equals the last 20 entries of the full transcript,
hence holds at most 20 entries and always the most recent ones. -/
theorem history_bounded (ps : List (Turn × Turn)) (sid : List Char) :
    getOrCreate [] sid = [] ∧
      histAfter ps = lastN 20 (ps.flatMap (fun p => [p.1, p.2])) ∧
      (histAfter ps).length ≤ 20 := by
  refine ⟨rfl, ?_, ?_⟩
  · unfold histAfter
    rw [histAfter_foldl ps [] (by simp), List.nil_append]
  · unfold histAfter
    rw [histAfter_foldl ps [] (by simp), List.nil_append, lastN_length]
    omega

/-! ### Frontend HTML escaping and rendering (`script.js` lines 24–94)

`escapeHtml` rewrites `&`, `<`, `>` to entities (in that order);
`toHtml` escapes first and only then adds markup. -/

/-- `String.prototype.replace` of a single character by a fixed string,
globally. -/
def replAll (c : Char) (rep : List Char) : List Char → List Char
  | [] => []
  | x :: xs => if x = c then rep ++ replAll c rep xs else x :: replAll c rep xs

/-- `escapeHtml` from `script.js` lines 24–29: `&` then `<` then `>`. -/
def escapeHtmlL (l : List Char) : List Char :=
  replAll '>' "&gt;".data (replAll '<' "&lt;".data (replAll '&' "&amp;".data l))

def escapeHtml (s : String) : String := ⟨escapeHtmlL s.data⟩

/-- Per-character description of the composite escape. -/
def escChar (c : Char) : List Char :=
  if c = '&' then "&amp;".data
  else if c = '<' then "&lt;".data
  else if c = '>' then "&gt;".data
  else [c]

theorem replAll_flatMap (c : Char) (rep : List Char) :
    ∀ l : List Char, replAll c rep l = l.flatMap (fun x => if x = c then rep else [x]) := by
  intro l
  induction l with
  | nil => rfl
  | cons x xs ih =>
    simp only [replAll, List.flatMap_cons]
    split
    · rw [ih]
    · rw [ih]; rfl

theorem escapeHtmlL_flatMap (l : List Char) :
    escapeHtmlL l = l.flatMap escChar := by
  unfold escapeHtmlL
  rw [replAll_flatMap, replAll_flatMap, replAll_flatMap]
  rw [List.flatMap_assoc, List.flatMap_assoc]
  apply List.flatMap_congr  -- pointwise equality of the per-character maps
  intro x _
  by_cases h1 : x = '&'
  · subst h1; decide
  · by_cases h2 : x = '<'
    · subst h2; decide
    · by_cases h3 : x = '>'
      · subst h3; decide
      · simp only [escChar, if_neg h1, if_neg h2, if_neg h3]
        simp only [List.flatMap_cons, List.flatMap_nil, List.append_nil, if_neg h1]
        simp only [List.flatMap_cons, List.flatMap_nil, List.append_nil, if_neg h2, if_neg h3]

/-- Index of the first occurrence of `pat` in `l`. -/
def findSub (pat : List Char) : List Char → Option Nat
  | [] => if pat.isPrefixOf ([] : List Char) then some 0 else none
  | c :: cs =>
    if pat.isPrefixOf (c :: cs) then some 0 else (findSub pat cs).map (· + 1)

/-- Step 2 of `toHtml`: `replace(/```([\s\S]*?)```/g, '<pre><code>$1</code></pre>')`.
The lazy capture is the text up to the next closing fence; an unclosed
fence is left alone (no later fence exists, so no further match).  Each
step consumes at least six characters, so fuel equal to the text length
(supplied by `codeBlocks`) never runs out. -/
def codeBlocksF : Nat → List Char → List Char
  | 0, l => l
  | fuel + 1, l =>
    match findSub "```".data l with
    | none => l
    | some i =>
      match findSub "```".data (l.drop (i + 3)) with
      | none => l
      | some j =>
        l.take i ++ "<pre><code>".data ++ (l.drop (i + 3)).take j ++ "</code></pre>".data
          ++ codeBlocksF fuel ((l.drop (i + 3)).drop (j + 3))

def codeBlocks (l : List Char) : List Char := codeBlocksF l.length l

/-- Lazy search for `close` at an index `≥ 0` with only non-newline
characters before it (the body of `(.+?)`). -/
def find0 (close : List Char) : List Char → Option Nat
  | [] => none
  | c :: cs =>
    if close.isPrefixOf (c :: cs) then some 0
    else if c = '\n' ∨ c = '\r' then none
    else (find0 close cs).map (· + 1)

/-- Lazy search for `close` at an index `≥ 1` (the capture of `(.+?)` is
nonempty and newline-free). -/
def findClose (close : List Char) : List Char → Option Nat
  | [] => none
  | c :: cs => if c = '\n' ∨ c = '\r' then none else (find0 close cs).map (· + 1)

/-- Steps 3a/3b of `toHtml`: `replace(/\*\*(.+?)\*\*/g, '<strong>$1</strong>')`
and `replace(/_(.+?)_/g, '<em>$1</em>')`.  On a failed match at a
position the scan advances one character, as the regex engine does.
Each step consumes at least one character, so fuel equal to the text
length (supplied by `inlineWrap`) never runs out. -/
def inlineWrapF (delim openTag closeTag : List Char) : Nat → List Char → List Char
  | 0, l => l
  | _, [] => []
  | fuel + 1, c :: cs =>
    if delim.isPrefixOf (c :: cs) then
      match findClose delim ((c :: cs).drop delim.length) with
      | some j =>
        openTag ++ ((c :: cs).drop delim.length).take j ++ closeTag
          ++ inlineWrapF delim openTag closeTag fuel
              (((c :: cs).drop delim.length).drop (j + delim.length))
      | none => c :: inlineWrapF delim openTag closeTag fuel cs
    else c :: inlineWrapF delim openTag closeTag fuel cs

def inlineWrap (delim openTag closeTag : List Char) (l : List Char) : List Char :=
  inlineWrapF delim openTag closeTag l.length l

/-- The `[^\s<]` class of the linkifier. -/
def urlChar (c : Char) : Bool := !wsB c && !(c == '<')

/-- Step 4 of `toHtml`:
`replace(/(https?:\/\/[^\s<]+)/g, '<a href="$1" target="_blank" rel="noopener">$1</a>')`.
Each step consumes at least one character, so fuel equal to the text
length (supplied by `linkify`) never runs out. -/
def linkifyF : Nat → List Char → List Char
  | 0, l => l
  | _, [] => []
  | fuel + 1, c :: cs =>
    match
      (if "https://".data.isPrefixOf (c :: cs) then some 8
       else if "http://".data.isPrefixOf (c :: cs) then some 7 else none : Option Nat) with
    | none => c :: linkifyF fuel cs
    | some k =>
      if ((c :: cs).drop k).takeWhile urlChar = [] then c :: linkifyF fuel cs
      else
        "<a href=\"".data ++ ((c :: cs).take k ++ ((c :: cs).drop k).takeWhile urlChar)
          ++ "\" target=\"_blank\" rel=\"noopener\">".data
          ++ ((c :: cs).take k ++ ((c :: cs).drop k).takeWhile urlChar)
          ++ "</a>".data
          ++ linkifyF fuel
              (((c :: cs).drop k).drop (((c :: cs).drop k).takeWhile urlChar).length)

def linkify (l : List Char) : List Char := linkifyF l.length l

/-- `text.split(/\r?\n/)`: split at `\n`, consuming a directly preceding
`\r`; a lone `\r` stays in its line. -/
def splitLinesAux (cur : List Char) : List Char → List (List Char)
  | [] => [cur.reverse]
  | '\r' :: '\n' :: rest => cur.reverse :: splitLinesAux [] rest
  | '\n' :: rest => cur.reverse :: splitLinesAux [] rest
  | c :: rest => splitLinesAux (c :: cur) rest

def splitLines (l : List Char) : List (List Char) := splitLinesAux [] l

/-- `/^[-*•]\s+(.*)$/` on a line: marker, at least one whitespace, and a
newline-free remainder (the capture). -/
def bulletMatch (line : List Char) : Option (List Char) :=
  match line with
  | c :: d :: rest =>
    if (c == '-' || c == '*' || c == '•') && wsB d &&
        ((d :: rest).dropWhile wsB).all (fun x => !(x == '\r') && !(x == '\n')) then
      some ((d :: rest).dropWhile wsB)
    else none
  | _ => none

/-- `/^\d+\.\s+(.*)$/` on a line. -/
def numMatch (line : List Char) : Option (List Char) :=
  match line.drop (line.takeWhile Char.isDigit).length with
  | '.' :: d :: tail =>
    if !(line.takeWhile Char.isDigit) == ([] : List Char) |>.and
        (wsB d && ((d :: tail).dropWhile wsB).all (fun x => !(x == '\r') && !(x == '\n'))) then
      some ((d :: tail).dropWhile wsB)
    else none
  | _ => none

/-- `closeLists()`: emit `</ul>` then `</ol>` for whichever is open. -/
def closeSegs (inUl inOl : Bool) : List (List Char) :=
  (if inUl then ["</ul>".data] else []) ++ (if inOl then ["</ol>".data] else [])

/-- Step 5 of `toHtml`: the line loop building list/paragraph segments. -/
def procLines (inUl inOl : Bool) : List (List Char) → List (List Char)
  | [] => closeSegs inUl inOl
  | raw :: rest =>
    let line := trimWS raw
    if line = [] then
      closeSegs inUl inOl ++ "<p style=\"margin:6px 0;\"></p>".data :: procLines false false rest
    else
      match bulletMatch line with
      | some m =>
        (if inOl then ["</ol>".data] else []) ++ (if !inUl then ["<ul>".data] else [])
          ++ ("<li>".data ++ m ++ "</li>".data) :: procLines true false rest
      | none =>
        match numMatch line with
        | some m =>
          (if inUl then ["</ul>".data] else []) ++ (if !inOl then ["<ol>".data] else [])
            ++ ("<li>".data ++ m ++ "</li>".data) :: procLines false true rest
        | none =>
          closeSegs inUl inOl ++
            ("<p>".data ++ line ++ "</p>".data) :: procLines false false rest

/-- Steps 2–5 of `toHtml`, applied to already-escaped text. -/
def toHtmlRest (text : List Char) : List Char :=
  List.intercalate ['\n']
    (procLines false false
      (splitLines
        (linkify
          (inlineWrap "_".data "<em>".data "</em>".data
            (inlineWrap "**".data "<strong>".data "</strong>".data
              (codeBlocks text))))))

/-- `toHtml` from `script.js` lines 33–94: escape first, then markup. -/
def toHtmlL (md : List Char) : List Char := toHtmlRest (escapeHtmlL md)

def toHtml (s : String) : String := ⟨toHtmlL s.data⟩

/-- **C10.**  `escapeHtml` rewrites every `&`, `<`, `>` of its input to
the corresponding HTML entity and its output contains no `<` and no
`>` character; `toHtml` applies this escaping before inserting any
markup (it is the post-processing pipeline applied to the escaped
text), so raw message text rendered via `addMessage`'s `innerHTML`
cannot introduce HTML tags. -/
theorem escapeHtml_no_tags (s : String) :
    escapeHtml s = ⟨s.data.flatMap escChar⟩ ∧
      '<' ∉ (escapeHtml s).data ∧ '>' ∉ (escapeHtml s).data ∧
      toHtml s = ⟨toHtmlRest (escapeHtmlL s.data)⟩ := by
  have hflat : escapeHtmlL s.data = s.data.flatMap escChar := escapeHtmlL_flatMap s.data
  have hesc : ∀ c : Char, ∀ d ∈ escChar c, d ≠ '<' ∧ d ≠ '>' := by
    intro c
    by_cases h1 : c = '&'
    · subst h1; decide
    · by_cases h2 : c = '<'
      · subst h2; decide
      · by_cases h3 : c = '>'
        · subst h3; decide
        · intro d hdc
          simp only [escChar, if_neg h1, if_neg h2, if_neg h3] at hdc
          rcases List.mem_singleton.mp hdc with rfl
          exact ⟨h2, h3⟩
  have hmem : ∀ d ∈ escapeHtmlL s.data, d ≠ '<' ∧ d ≠ '>' := by
    intro d hd
    rw [hflat] at hd
    rcases List.mem_flatMap.mp hd with ⟨c, _, hdc⟩
    exact hesc c d hdc
  refine ⟨congrArg String.mk hflat, ?_, ?_, rfl⟩
  · intro hin
    exact (hmem '<' hin).1 rfl
  · intro hin
    exact (hmem '>' hin).2 rfl

/-! ### Word-boundary pattern tests (`server.js` regexes)

The `detectTag`, `guessLang` and `smartBoundaryAndInterview` regexes are
alternations of phrases built from literal words, `\s+` and `\s*`,
wrapped in `\b … \b`; every phrase starts and ends with a word
character. -/

/-- One token of such a phrase. -/
inductive Tok where
  | lit (w : List Char)
  | ws1
  | ws0

/-- Match a phrase at the front of `l`; returns the rest on success.
`\s+` and `\s*` are greedy, which is equivalent to maximal-munch here
because every following literal starts with a non-whitespace character. -/
def matchToks : List Tok → List Char → Option (List Char)
  | [], l => some l
  | Tok.lit w :: ts, l =>
    if w.isPrefixOf l then matchToks ts (l.drop w.length) else none
  | Tok.ws1 :: ts, l =>
    match l with
    | [] => none
    | c :: cs => if wsB c then matchToks ts ((c :: cs).dropWhile wsB) else none
  | Tok.ws0 :: ts, l => matchToks ts (l.dropWhile wsB)

/-- The closing `\b`: next character absent or not a word character. -/
def wbOk (l : List Char) : Bool :=
  match l with
  | [] => true
  | c :: _ => !wordB c

def matchAt (toks : List Tok) (l : List Char) : Bool :=
  match matchToks toks l with
  | some rest => wbOk rest
  | none => false

/-- Scan all positions; the opening `\b` holds where the previous
character is not a word character. -/
def testPat (toks : List Tok) : Bool → List Char → Bool
  | prevW, [] => !prevW && matchAt toks []
  | prevW, c :: cs => (!prevW && matchAt toks (c :: cs)) || testPat toks (wordB c) cs

/-- `/\b…\b/.test(l)`. -/
def reWord (toks : List Tok) (l : List Char) : Bool := testPat toks false l

/-- Plain substring containment (a regex with no `\b`). -/
def containsSub (sub : List Char) : List Char → Bool
  | [] => sub.isPrefixOf ([] : List Char)
  | c :: cs => sub.isPrefixOf (c :: cs) || containsSub sub cs

/-- Whole-word test for a single literal word. -/
def rw1 (w : List Char) (l : List Char) : Bool := reWord [Tok.lit w] l

/-! ### `detectTag` (`server.js` lines 124–141) -/

def COMPANY_TAGS : List (List Char) :=
  ["gannaca".data, "ingram".data, "cancom".data, "covestro".data]

def SECTION_TAGS : List (List Char) :=
  ["education".data, "skills".data, "tools".data, "languages".data,
   "certifications".data, "early".data]

/-- `detectTag` from `server.js` lines 129–141.  `\bws?\b` is the
disjunction of the two whole words `w` and `ws`. -/
def detectTag (qLower : List Char) : Option (List Char) :=
  if rw1 "gannaca".data qLower then some "gannaca".data
  else if rw1 "ingram".data qLower then some "ingram".data
  else if rw1 "cancom".data qLower then some "cancom".data
  else if rw1 "covestro".data qLower then some "covestro".data
  else if rw1 "education".data qLower || rw1 "university".data qLower ||
      rw1 "bachelor".data qLower then some "education".data
  else if rw1 "skill".data qLower || rw1 "skills".data qLower then some "skills".data
  else if rw1 "tool".data qLower || rw1 "tools".data qLower ||
      rw1 "system".data qLower || rw1 "systems".data qLower ||
      rw1 "stack".data qLower then some "tools".data
  else if rw1 "language".data qLower || rw1 "languages".data qLower ||
      rw1 "romanian".data qLower || rw1 "german".data qLower ||
      rw1 "english".data qLower then some "languages".data
  else if containsSub "early experience".data qLower ||
      containsSub "voluntary roles".data qLower ||
      containsSub "2008".data qLower || containsSub "2016".data qLower then
    some "early".data
  else if rw1 "certification".data qLower || rw1 "certifications".data qLower ||
      rw1 "training".data qLower || rw1 "course".data qLower ||
      rw1 "courses".data qLower then some "certifications".data
  else none

/-! ### `smartBoundaryAndInterview` (`server.js` lines 144–265) -/

/-- `opts[Math.floor(Math.random()*opts.length)]`: one uniformly random
index, supplied by the oracle `rnd` and reduced into range. -/
def pickOpt (rnd : Nat) (opts : List (List Char)) : List Char :=
  opts.getD (rnd % opts.length) []

def ageOpts : List (List Char) :=
  ["Age isn’t the useful signal here. Focus on capability, outcomes, and fit.".data,
   "Let’s optimize for signal: skills, outcomes, and alignment matter more than age.".data,
   "What’s relevant is impact and fit. Age doesn’t predict either.".data]

def kidsOpts : List (List Char) :=
  ["Personal details aren’t relevant. Happy to discuss mentoring and team development instead.".data,
   "Let’s keep it professional. Ask about enablement, leadership, or outcomes.".data,
   "That’s outside scope. You shouldn\x27t ask that.".data]

def maritalOpts : List (List Char) :=
  ["Let’s keep the focus on experience, decision-making, and outcomes.".data,
   "Professional scope only: strengths, track record, and fit.".data,
   "Happy to cover roles, skills, and results - personal details aren’t part of this profile.".data]

def strengthsOpts : List (List Char) :=
  ["Strengths: fast pattern recognition, crisp communication, and reliable delivery in complex environments.".data,
   "She connects strategy to execution quickly, communicates with precision, and delivers predictably.".data,
   "Core strengths: systems thinking, concise articulation, and making complex work legible for teams.".data]

def weaknessOpts : List (List Char) :=
  ["She tends to over-polish; mitigated by time-boxing and clear ‘good-enough’ criteria.".data,
   "Perfectionist streak — managed with deadlines, peer review, and incremental releases.".data,
   "Bias toward optimizing details; balanced by prioritizing impact and shipping cadence.".data]

def challengeOpts : List (List Char) :=
  ["Marketplace onboarding amid shifting systems - she aligned stakeholders and stabilized operations.".data,
   "Conflicting integrations and timelines - she mapped risks, reset scope, and restored predictability.".data,
   "Multiple moving dependencies - she clarified ownership and rebuilt a reliable flow.".data]

def hireOpts : List (List Char) :=
  ["Of course.Hiring her means gaining someone who cuts noise, creates clarity, and executes reliably.".data,
   "If the goal is precision, adaptability, and structured delivery - the hire is self-evident.".data,
   "Her track record shows: she builds systems, translates vision into execution, and sustains outcomes.".data]

def salaryOpts : List (List Char) :=
  ["Salary expectations depend on role scope and market benchmarks - best aligned during formal discussions.".data,
   "Compensation is context-driven. Alignment with responsibilities and market standards is the right frame.".data,
   "That’s a structured conversation for the hiring stage - tied to scope, value, and benchmarks.".data]

def thinkOpts : List (List Char) :=
  ["She thinks in systems: spot patterns fast, frame the problem cleanly, decide with evidence, and communicate the path forward in plain language.".data,
   "She thinks fast, connects the unexpected, and solves with sharp clarity. Original, intuitive, and allergic to fluff, she cuts to the core and builds what’s missing - better than before.".data,
   "She connects dots faster than most realize, brings clarity where others stall, and navigates pressure with sharp wit and quiet precision.".data]

def workStyleOpts : List (List Char) :=
  ["She absorbs context fast, spots what actually matters, and moves from ambiguity to action before the room agrees what the problem is.".data,
   "She mixes strategic focus with creative improvisation - balancing precision when it counts and speed when it’s needed.".data]

def commOpts : List (List Char) :=
  ["She communicates with intent: every word serves a purpose. Whether she\x27s crafting strategy or giving feedback, her style is direct, smart, and tuned to the audience - always clear, never performative.".data,
   "Her communication cuts through noise. She doesn’t over-explain or sugarcoat. Instead, she brings structure, nuance, and the kind of clarity that turns complexity into alignment.".data]

def decisionOpts : List (List Char) :=
  ["She makes fast, informed decisions when speed matters - and slows down when precision is required. She combines instinct with analysis, never defaulting to autopilot.".data,
   "She’s not afraid to take responsibility. Her decisions are driven by relevance, not trends, and by asking the right questions.".data]

def whoOpts : List (List Char) :=
  ["She’s the person who asks the question no one else thought to. Who finishes what others start- or starts what others wouldn’t dare to. Wit like flint, focus when it counts, and a restlessness that doesn’t settle for ‘fine’. She turns systems into stories, stories into action, and action into results.".data,
   "Think strategic operator meets pattern disruptor. She thrives in ambiguity, doesn’t wait for permission, and doesn’t waste time. High-context, high-output, and with an amazing sense of humor.".data]

def ageTest (q : List Char) : Bool :=
  reWord [Tok.lit "how".data, Tok.ws1, Tok.lit "old".data] q ||
    (rw1 "age".data q || reWord [Tok.lit "years".data, Tok.ws1, Tok.lit "old".data] q)

def kidsTest (q : List Char) : Bool :=
  rw1 "kids".data q || rw1 "children".data q || rw1 "child".data q

def maritalTest (q : List Char) : Bool :=
  rw1 "single".data q || rw1 "married".data q || rw1 "relationship".data q ||
    rw1 "partner".data q || rw1 "family".data q

def strengthsTest (q : List Char) : Bool :=
  rw1 "strength".data q || rw1 "strengths".data q

def weaknessTest (q : List Char) : Bool :=
  rw1 "weakness".data q || rw1 "weaknesses".data q || rw1 "flaw".data q ||
    rw1 "flaws".data q

def challengeTest (q : List Char) : Bool :=
  rw1 "challenge".data q ||
    reWord [Tok.lit "hard".data, Tok.ws0, Tok.lit "time".data] q ||
    rw1 "difficult".data q || rw1 "hardest".data q

def hireTest (q : List Char) : Bool :=
  reWord [Tok.lit "should".data, Tok.ws1, Tok.lit "we".data, Tok.ws1,
    Tok.lit "hire".data] q ||
    reWord [Tok.lit "hire".data, Tok.ws1, Tok.lit "her".data] q

def salaryTest (q : List Char) : Bool :=
  rw1 "salary".data q || rw1 "compensation".data q || rw1 "pay".data q

def contactTest (q : List Char) : Bool :=
  rw1 "contact".data q || rw1 "email".data q || rw1 "phone".data q

def thinkTest (q : List Char) : Bool :=
  reWord [Tok.lit "how".data, Tok.ws1, Tok.lit "does".data, Tok.ws1,
    Tok.lit "she".data, Tok.ws1, Tok.lit "think".data] q ||
    reWord [Tok.lit "thinking".data, Tok.ws1, Tok.lit "style".data] q ||
    reWord [Tok.lit "how".data, Tok.ws1, Tok.lit "she".data, Tok.ws1,
      Tok.lit "thinks".data] q ||
    reWord [Tok.lit "thought".data, Tok.ws1, Tok.lit "process".data] q

def workStyleTest (q : List Char) : Bool :=
  reWord [Tok.lit "work".data, Tok.ws1, Tok.lit "style".data] q ||
    reWord [Tok.lit "how".data, Tok.ws1, Tok.lit "does".data, Tok.ws1,
      Tok.lit "she".data, Tok.ws1, Tok.lit "work".data] q ||
    reWord [Tok.lit "how".data, Tok.ws1, Tok.lit "she".data, Tok.ws1,
      Tok.lit "works".data] q ||
    reWord [Tok.lit "way".data, Tok.ws1, Tok.lit "of".data, Tok.ws1,
      Tok.lit "working".data] q ||
    reWord [Tok.lit "operating".data, Tok.ws1, Tok.lit "style".data] q

def commTest (q : List Char) : Bool :=
  reWord [Tok.lit "communication".data, Tok.ws1, Tok.lit "style".data] q ||
    reWord [Tok.lit "how".data, Tok.ws1, Tok.lit "she".data, Tok.ws1,
      Tok.lit "communicates".data] q ||
    rw1 "communicator".data q

def decisionTest (q : List Char) : Bool :=
  reWord [Tok.lit "decision".data, Tok.ws1, Tok.lit "making".data] q ||
    rw1 "decision-making".data q ||
    reWord [Tok.lit "how".data, Tok.ws1, Tok.lit "she".data, Tok.ws1,
      Tok.lit "decides".data] q ||
    reWord [Tok.lit "decision".data, Tok.ws1, Tok.lit "style".data] q

def whoTest (q : List Char) : Bool :=
  reWord [Tok.lit "what".data, Tok.ws1, Tok.lit "is".data, Tok.ws1,
    Tok.lit "she".data, Tok.ws1, Tok.lit "like".data] q ||
    reWord [Tok.lit "who".data, Tok.ws1, Tok.lit "is".data, Tok.ws1,
      Tok.lit "she".data] q ||
    reWord [Tok.lit "describe".data, Tok.ws1, Tok.lit "her".data] q ||
    reWord [Tok.lit "her".data, Tok.ws1, Tok.lit "essence".data] q

/-- The preprocessing of line 145: `qLower.replace(/[?.!]/g, ' ').trim()`. -/
def boundaryPrep (qLower : List Char) : List Char :=
  trimWS (qLower.map (fun c => if c = '?' ∨ c = '.' ∨ c = '!' then ' ' else c))

/-- `smartBoundaryAndInterview` from `server.js` lines 144–265; `rnd` is
the random oracle for the single pool draw. -/
def smartBoundaryAndInterview (qLower : List Char) (rnd : Nat) : Option (List Char) :=
  let q := boundaryPrep qLower
  if ageTest q then some (pickOpt rnd ageOpts)
  else if kidsTest q then some (pickOpt rnd kidsOpts)
  else if maritalTest q then some (pickOpt rnd maritalOpts)
  else if strengthsTest q then some (pickOpt rnd strengthsOpts)
  else if weaknessTest q then some (pickOpt rnd weaknessOpts)
  else if challengeTest q then some (pickOpt rnd challengeOpts)
  else if hireTest q then some (pickOpt rnd hireOpts)
  else if salaryTest q then some (pickOpt rnd salaryOpts)
  else if contactTest q then
    some "Her contact details are provided in the original CV PDF you received.".data
  else if thinkTest q then some (pickOpt rnd thinkOpts)
  else if workStyleTest q then some (pickOpt rnd workStyleOpts)
  else if commTest q then some (pickOpt rnd commOpts)
  else if decisionTest q then some (pickOpt rnd decisionOpts)
  else if whoTest q then some (pickOpt rnd whoOpts)
  else none

example : smartBoundaryAndInterview ("How old is she?".data.map jsLower) 0 =
    some (ageOpts.getD 0 []) := by decide

example : smartBoundaryAndInterview ("tell me about cancom".data.map jsLower) 0 =
    none := by decide

/-! ### `guessLang` (`server.js` lines 51–61) -/

def deChars : List Char := ['ä', 'ö', 'ü', 'ß']

def roChars : List Char := ['ă', 'â', 'î', 'ș', 'ş', 'ţ', 'ț']

def deWords : List (List Char) :=
  ["der".data, "die".data, "das".data, "und".data, "mit".data, "wie".data,
   "was".data, "sind".data, "ihre".data, "starken".data, "schwachen".data,
   "warum".data, "arbeitsumfeld".data, "lebenslauf".data, "rollen".data,
   "faehigkeiten".data, "werkzeuge".data]

def roWords : List (List Char) :=
  ["este".data, "sunt".data, "care".data, "ce".data, "cum".data, "ea".data,
   "si".data, "intr".data, "din".data, "de".data, "la".data, "in".data,
   "puncte".data, "tari".data, "slabe".data, "angajam".data, "mediu".data,
   "munca".data, "abilitati".data, "fluxuri".data]

/-- `guessLang`: diacritic classes (case-insensitive, on the raw text)
first, then whole-word lists on the normalized text, defaulting to
English. -/
def guessLang (text : List Char) : List Char :=
  let t := normalizeL text
  if text.any (fun c => deChars.contains (jsLower c)) then "de".data
  else if text.any (fun c => roChars.contains (jsLower c)) then "ro".data
  else if deWords.any (fun w => rw1 w t) then "de".data
  else if roWords.any (fun w => rw1 w t) then "ro".data
  else "en".data

example : guessLang "lebenslauf".data = "de".data := by decide

example : guessLang "какво".data = "en".data := by decide

/-! ### Interview bank (`server.js` lines 93–109, the effective
declaration)

`server.js` declares `interviewAnswer` twice; under JavaScript function
hoisting the second declaration (lines 93–109) shadows the multilingual
one (lines 64–90), so the effective behavior has no English-pool
fallback and no second pass over English triggers.  Cluster fields are
`Option` so that a missing JSON key (falsy, `undefined`) is
distinguished from a present-but-empty array (truthy `[]`). -/

structure Cluster where
  triggers_en : Option (List (List Char))
  triggers_de : Option (List (List Char))
  triggers_ro : Option (List (List Char))
  answers_en : Option (List (List Char))
  answers_de : Option (List (List Char))
  answers_ro : Option (List (List Char))
deriving DecidableEq

/-- `item[trigKey] || []` for the detected language. -/
def trigSel (lang : List Char) (c : Cluster) : List (List Char) :=
  (if lang = "de".data then c.triggers_de
   else if lang = "ro".data then c.triggers_ro else c.triggers_en).getD []

/-- `item[ansKey] || []` for the detected language. -/
def ansSel (lang : List Char) (c : Cluster) : List (List Char) :=
  (if lang = "de".data then c.answers_de
   else if lang = "ro".data then c.answers_ro else c.answers_en).getD []

/-- The cluster loop of lines 101–107: on a trigger match, return a
random answer only if the pool is nonempty, otherwise keep scanning. -/
def iaLoop (lang : List Char) (q : List Char) (rnd : Nat) : List Cluster → Option (List Char)
  | [] => none
  | c :: rest =>
    let triggers := (trigSel lang c).map (fun t => trimWS (t.map jsLower))
    if triggers.any (fun t => !t.isEmpty && containsSub t q) then
      if !(ansSel lang c).isEmpty then
        some ((ansSel lang c).getD (rnd % (ansSel lang c).length) [])
      else iaLoop lang q rnd rest
    else iaLoop lang q rnd rest

/-- The effective `interviewAnswer` (`server.js` lines 93–109). -/
def interviewAnswerA (clusters : List Cluster) (question : List Char) (rnd : Nat) :
    Option (List Char) :=
  if clusters.isEmpty then none
  else
    let q := question.map jsLower
    iaLoop (guessLang q) q rnd clusters

/-! ### The `/chat` handler (`server.js` lines 311–432)

The handler is a straight-line pipeline.  The two external services are
oracles: `embedO` for `openai.embeddings.create` and `gen` for
`openai.chat.completions.create` (returning `none` models a missing
`choices[0].message.content`, replaced by `'No reply.'`).  Cosine
similarity over floating-point vectors is abstracted as the oracle
`sim`: every claim below holds for every scoring function, in
particular the floating-point cosine of `cosineSim`.  `rnd` supplies
the single `Math.random()` draw a request can make, `rr` is the
`rrMap` state.  The result records the response fields together with a
trace of which stages ran. -/

structure Chunk where
  cid : List Char
  tag : List Char
  text : List Char
  embedding : List ℚ
deriving DecidableEq

structure Scored where
  cid : List Char
  tag : List Char
  text : List Char
  score : ℚ
deriving DecidableEq

/-- The response plus an execution trace. -/
structure ChatOut where
  answer : List Char
  tagField : Option (List Char)
  usedChunks : Option (List Scored)
  embedCalled : Bool
  generateCalled : Bool
  context : List Scored
deriving DecidableEq

/-- `replace(/pat/gi, rep)` without boundary anchors, for
`reply.replace(/Cristina Merisoiu/gi, 'Cristina')` (line 408).  Each
step consumes at least one character, so fuel equal to the text length
(supplied by `replCI`) never runs out. -/
def replCIF (pat rep : List Char) : Nat → List Char → List Char
  | 0, l => l
  | _, [] => []
  | fuel + 1, c :: cs =>
    if !pat.isEmpty && ciStarts pat (c :: cs) then
      rep ++ replCIF pat rep fuel ((c :: cs).drop pat.length)
    else c :: replCIF pat rep fuel cs

def replCI (pat rep l : List Char) : List Char := replCIF pat rep l.length l

/-- Steps 5–8 of the handler (top-3, variant, generation, output
normalization), reached with the already-scoped pool. -/
def chatFinish (pool : List Scored) (message : List Char) (debug : Bool)
    (isCompany isSection : Bool) (desiredTag : Option (List Char))
    (rr : List Char → Nat)
    (gen : List (List Char) → List Char → Variant → Option (List Char)) : ChatOut :=
  let topK := (List.insertionSort (fun a b => b.score ≤ a.score) pool).take 3
  let contextBlocks := topK.enum.map (fun p =>
    "[".data ++ (Nat.repr (p.1 + 1)).data ++ " :: ".data ++ p.2.tag ++ "] ".data ++ p.2.text)
  let variant := (pickVariant rr message isCompany).1
  let maxWords := if isSection then 140 else 90
  let reply0 := (gen contextBlocks message variant).getD "No reply.".data
  let reply1 := replCI "Cristina Merisoiu".data "Cristina".data reply0
  let reply := enforceShortL (enforceThirdPersonL reply1) maxWords
  { answer := reply
    tagField := if debug then some (desiredTag.getD "(auto)".data) else none
    usedChunks := if debug then some topK else none
    embedCalled := true
    generateCalled := true
    context := topK }

/-- `app.post('/chat')` of `server.js` lines 311–432 (variant A: no
sessions, boundary overrides before the interview bank before scoped
retrieval). -/
def chat1 (kb : List Chunk) (clusters : List Cluster)
    (embedO : List Char → List ℚ) (sim : List ℚ → List ℚ → ℚ)
    (gen : List (List Char) → List Char → Variant → Option (List Char))
    (rr : List Char → Nat) (message : List Char) (debug : Bool) (rnd : Nat) : ChatOut :=
  if trimWS message = [] then
    ⟨"Please ask a question.".data, none, none, false, false, []⟩
  else if kb.isEmpty then
    ⟨"I don\x27t have Cristina’s CV context loaded yet.".data, none, none, false, false, []⟩
  else
    let qLower := message.map jsLower
    let desiredTag := detectTag qLower
    let isCompany := COMPANY_TAGS.contains (desiredTag.getD [])
    let isSection := SECTION_TAGS.contains (desiredTag.getD [])
    match smartBoundaryAndInterview qLower rnd with
    | some ans => ⟨ans, none, none, false, false, []⟩
    | none =>
      match interviewAnswerA clusters message rnd with
      | some ans => ⟨ans, none, none, false, false, []⟩
      | none =>
        let qemb := embedO message
        let allScored := kb.map (fun it => Scored.mk it.cid it.tag it.text (sim qemb it.embedding))
        match desiredTag with
        | some tg =>
          if (allScored.filter (fun s => s.tag == tg)).isEmpty then
            { answer := "Not in scope for the CV context.".data
              tagField := none
              usedChunks := if debug then some [] else none
              embedCalled := true
              generateCalled := false
              context := [] }
          else
            chatFinish (allScored.filter (fun s => s.tag == tg)) message debug
              isCompany isSection desiredTag rr gen
        | none =>
          chatFinish allScored message debug isCompany isSection desiredTag rr gen

theorem isPrefixOf_head_mem {w l : List Char} (hw : w ≠ [])
    (h : w.isPrefixOf l = true) : w.headD ' ' ∈ l := by
  have hp : w <+: l := List.isPrefixOf_iff_prefix.mp h
  rcases hp with ⟨t, ht⟩
  cases w with
  | nil => exact absurd rfl hw
  | cons x xs =>
    rw [← ht]
    exact List.mem_append_left _ (List.mem_cons_self _ _)

theorem rw1_mem (w : List Char) (hw : w ≠ []) :
    ∀ (l : List Char) (pw : Bool), testPat [Tok.lit w] pw l = true → w.headD ' ' ∈ l := by
  intro l
  induction l with
  | nil =>
    intro pw h
    exfalso
    simp only [testPat, matchAt, matchToks] at h
    cases w with
    | nil => exact absurd rfl hw
    | cons x xs => simp [List.isPrefixOf] at h
  | cons c cs ih =>
    intro pw h
    simp only [testPat, Bool.or_eq_true, Bool.and_eq_true] at h
    rcases h with ⟨_, hm⟩ | h
    · unfold matchAt matchToks at hm
      by_cases hp2 : w.isPrefixOf (c :: cs) = true
      · exact isPrefixOf_head_mem hw hp2
      · simp [hp2] at hm
    · exact List.mem_cons_of_mem _ (ih _ h)

theorem containsSub_mem (w : List Char) (hw : w ≠ []) :
    ∀ l : List Char, containsSub w l = true → w.headD ' ' ∈ l := by
  intro l
  induction l with
  | nil =>
    intro h
    exfalso
    cases w with
    | nil => exact absurd rfl hw
    | cons x xs => simp [containsSub, List.isPrefixOf] at h
  | cons c cs ih =>
    intro h
    simp only [containsSub, Bool.or_eq_true] at h
    rcases h with h | h
    · exact isPrefixOf_head_mem hw h
    · exact List.mem_cons_of_mem _ (ih h)

theorem exists_nonws_of_word (w : List Char) (hw : w ≠ [])
    (hnw : wsB (w.headD ' ') = false) {l : List Char} (h : rw1 w l = true) :
    ∃ c ∈ l, wsB c = false :=
  ⟨w.headD ' ', rw1_mem w hw l false h, hnw⟩

theorem exists_nonws_of_sub (w : List Char) (hw : w ≠ [])
    (hnw : wsB (w.headD ' ') = false) {l : List Char} (h : containsSub w l = true) :
    ∃ c ∈ l, wsB c = false :=
  ⟨w.headD ' ', containsSub_mem w hw l h, hnw⟩

/-- A detected tag needs at least one non-whitespace character in the
query: every `detectTag` pattern contains one. -/
theorem detectTag_nonws {l tg : List Char} (h : detectTag l = some tg) :
    ∃ c ∈ l, wsB c = false := by
  unfold detectTag at h
  split at h
  · next hc => exact exists_nonws_of_word _ (by decide) (by decide) hc
  split at h
  · next hc => exact exists_nonws_of_word _ (by decide) (by decide) hc
  split at h
  · next hc => exact exists_nonws_of_word _ (by decide) (by decide) hc
  split at h
  · next hc => exact exists_nonws_of_word _ (by decide) (by decide) hc
  split at h
  · next hc =>
    simp only [Bool.or_eq_true] at hc
    rcases hc with (hc | hc) | hc <;>
      exact exists_nonws_of_word _ (by decide) (by decide) hc
  split at h
  · next hc =>
    simp only [Bool.or_eq_true] at hc
    rcases hc with hc | hc <;>
      exact exists_nonws_of_word _ (by decide) (by decide) hc
  split at h
  · next hc =>
    simp only [Bool.or_eq_true] at hc
    rcases hc with (((hc | hc) | hc) | hc) | hc <;>
      exact exists_nonws_of_word _ (by decide) (by decide) hc
  split at h
  · next hc =>
    simp only [Bool.or_eq_true] at hc
    rcases hc with (((hc | hc) | hc) | hc) | hc <;>
      exact exists_nonws_of_word _ (by decide) (by decide) hc
  split at h
  · next hc =>
    simp only [Bool.or_eq_true] at hc
    rcases hc with ((hc | hc) | hc) | hc <;>
      exact exists_nonws_of_sub _ (by decide) (by decide) hc
  split at h
  · next hc =>
    simp only [Bool.or_eq_true] at hc
    rcases hc with (((hc | hc) | hc) | hc) | hc <;>
      exact exists_nonws_of_word _ (by decide) (by decide) hc
  · cases h

theorem trimWS_ne_nil_of_mem {l : List Char} {c : Char} (hc : c ∈ l)
    (hw : wsB c = false) : trimWS l ≠ [] := by
  intro h0
  have hY : (l.dropWhile wsB).reverse.dropWhile wsB = [] := by
    have := congrArg List.reverse h0
    simpa [trimWS] using this
  have hdp : ∀ x ∈ l.dropWhile wsB, wsB x = true := by
    intro x hx
    exact List.dropWhile_eq_nil_iff.mp hY x (List.mem_reverse.mpr hx)
  rw [← List.takeWhile_append_dropWhile wsB l] at hc
  rcases List.mem_append.mp hc with h1 | h1
  · rw [List.mem_takeWhile_imp h1] at hw
    cases hw
  · rw [hdp c h1] at hw
    cases hw

/-- A message with a detected tag passes the blank-message check. -/
theorem trim_msg_ne {message tg : List Char}
    (htag : detectTag (message.map jsLower) = some tg) : trimWS message ≠ [] := by
  rcases detectTag_nonws htag with ⟨c, hc, hw⟩
  rcases List.mem_map.mp hc with ⟨c0, hc0, rfl⟩
  rw [wsB_jsLower] at hw
  exact trimWS_ne_nil_of_mem hc0 hw

theorem allScored_filter_nil (kb : List Chunk) (q : List ℚ)
    (sim : List ℚ → List ℚ → ℚ) {tg : List Char} (hno : ∀ c ∈ kb, c.tag ≠ tg) :
    (kb.map (fun it => Scored.mk it.cid it.tag it.text (sim q it.embedding))).filter
      (fun s => s.tag == tg) = [] := by
  induction kb with
  | nil => rfl
  | cons c cs ih =>
    simp only [List.map_cons, List.filter_cons]
    have hne : ((Scored.mk c.cid c.tag c.text (sim q c.embedding)).tag == tg) = false :=
      beq_eq_false_iff_ne.mpr (hno c (List.mem_cons_self _ _))
    rw [hne]
    simp only [Bool.false_eq_true, if_false]
    exact ih (fun d hd => hno d (List.mem_cons_of_mem _ hd))

/-- **C1 (amended).**  When a request reaches the retrieval stage — its
message is intercepted by neither the boundary overrides nor the canned
interview bank, and the knowledge base is loaded — and its message
yields a detected tag carried by no knowledge-base chunk, the `/chat`
handler answers exactly with the fixed out-of-scope message, reports
`used_chunks: []` in debug mode, selects no context and never calls the
generator: it does not fall back to ranking the unrestricted corpus.
(Without those interception conditions the claim fails, see the
counterexample.) -/
theorem chat_out_of_scope (kb : List Chunk) (clusters : List Cluster)
    (embedO : List Char → List ℚ) (sim : List ℚ → List ℚ → ℚ)
    (gen : List (List Char) → List Char → Variant → Option (List Char))
    (rr : List Char → Nat) (message : List Char) (debug : Bool) (rnd : Nat)
    (tg : List Char)
    (htag : detectTag (message.map jsLower) = some tg)
    (hno : ∀ c ∈ kb, c.tag ≠ tg)
    (hkb : kb ≠ [])
    (hov : smartBoundaryAndInterview (message.map jsLower) rnd = none)
    (hca : interviewAnswerA clusters message rnd = none) :
    chat1 kb clusters embedO sim gen rr message debug rnd =
      { answer := "Not in scope for the CV context.".data
        tagField := none
        usedChunks := if debug then some [] else none
        embedCalled := true
        generateCalled := false
        context := [] } := by
  unfold chat1
  rw [if_neg (trim_msg_ne htag)]
  have hkb' : ¬(kb.isEmpty = true) := by
    simp only [List.isEmpty_eq_true]
    exact hkb
  rw [if_neg hkb']
  simp only [htag, hov, hca]
  rw [allScored_filter_nil kb (embedO message) sim hno]
  rfl

/-- **C1, counterexample to the claim as stated.**  The message
"how old is she at cancom?" yields the detected tag `cancom`, and the
knowledge base (one `skills` chunk) has no chunk with that tag, yet the
handler answers with an age-boundary deflection, not the out-of-scope
message: the boundary stage preempts scoped retrieval. -/
theorem chat_out_of_scope_cex :
    detectTag ("how old is she at cancom?".data.map jsLower) = some "cancom".data ∧
      (∀ c ∈ [Chunk.mk "1".data "skills".data "text".data []],
        c.tag ≠ "cancom".data) ∧
      (chat1 [Chunk.mk "1".data "skills".data "text".data []] []
          (fun _ => []) (fun _ _ => 0) (fun _ _ _ => none) (fun _ => 0)
          "how old is she at cancom?".data false 0).answer =
        ageOpts.getD 0 [] ∧
      (chat1 [Chunk.mk "1".data "skills".data "text".data []] []
          (fun _ => []) (fun _ _ => 0) (fun _ _ _ => none) (fun _ => 0)
          "how old is she at cancom?".data false 0).answer ≠
        "Not in scope for the CV context.".data := by
  refine ⟨by decide, by decide, ?_, ?_⟩ <;> decide

/-- Witness for `chat_out_of_scope`: message "cancom?", one `skills`
chunk, no interception. -/
theorem chat_out_of_scope_witness :
    detectTag ("cancom?".data.map jsLower) = some "cancom".data ∧
      (∀ c ∈ [Chunk.mk "1".data "skills".data "text".data []], c.tag ≠ "cancom".data) ∧
      ([Chunk.mk "1".data "skills".data "text".data []] : List Chunk) ≠ [] ∧
      smartBoundaryAndInterview ("cancom?".data.map jsLower) 0 = none ∧
      interviewAnswerA [] "cancom?".data 0 = none ∧
      chat1 [Chunk.mk "1".data "skills".data "text".data []] []
          (fun _ => []) (fun _ _ => 0) (fun _ _ _ => none) (fun _ => 0)
          "cancom?".data true 0 =
        { answer := "Not in scope for the CV context.".data
          tagField := none
          usedChunks := if true then some [] else none
          embedCalled := true
          generateCalled := false
          context := [] } :=
  ⟨by decide, by decide, by decide, by decide, by decide,
   chat_out_of_scope [Chunk.mk "1".data "skills".data "text".data []] []
     (fun _ => []) (fun _ _ => 0) (fun _ _ _ => none) (fun _ => 0)
     "cancom?".data true 0 "cancom".data (by decide) (by decide) (by decide)
     (by decide) (by decide)⟩

/-- **C2.**  When the message yields a detected tag and at least one
knowledge-base chunk carries it, every chunk selected as context (the
top-K list reported as `used_chunks` in debug mode) has exactly the
detected tag; moreover filtering after scoring equals scoring the
restricted corpus (scoring is effectively restricted to chunks of that
tag), and the scoped pool is nonempty, so the out-of-scope fallback
does not fire.  This holds for every scoring function `sim`, in
particular the floating-point cosine. -/
theorem chat_scoped (kb : List Chunk) (clusters : List Cluster)
    (embedO : List Char → List ℚ) (sim : List ℚ → List ℚ → ℚ)
    (gen : List (List Char) → List Char → Variant → Option (List Char))
    (rr : List Char → Nat) (message : List Char) (debug : Bool) (rnd : Nat)
    (tg : List Char)
    (htag : detectTag (message.map jsLower) = some tg)
    (hex : ∃ c ∈ kb, c.tag = tg) :
    (∀ s ∈ (chat1 kb clusters embedO sim gen rr message debug rnd).context,
        s.tag = tg) ∧
      (kb.map (fun it => Scored.mk it.cid it.tag it.text
          (sim (embedO message) it.embedding))).filter (fun s => s.tag == tg) =
        (kb.filter (fun c => c.tag == tg)).map (fun it => Scored.mk it.cid it.tag it.text
          (sim (embedO message) it.embedding)) ∧
      (kb.map (fun it => Scored.mk it.cid it.tag it.text
          (sim (embedO message) it.embedding))).filter (fun s => s.tag == tg) ≠ [] := by
  have hfm :
      (kb.map (fun it => Scored.mk it.cid it.tag it.text
          (sim (embedO message) it.embedding))).filter (fun s => s.tag == tg) =
        (kb.filter (fun c => c.tag == tg)).map (fun it => Scored.mk it.cid it.tag it.text
          (sim (embedO message) it.embedding)) := by
    rw [List.filter_map]
    rfl
  have hne :
      (kb.map (fun it => Scored.mk it.cid it.tag it.text
          (sim (embedO message) it.embedding))).filter (fun s => s.tag == tg) ≠ [] := by
    rcases hex with ⟨c0, hc0, htg0⟩
    intro h0
    rw [hfm] at h0
    have : c0 ∈ kb.filter (fun c => c.tag == tg) :=
      List.mem_filter.mpr ⟨hc0, by simp [htg0]⟩
    rw [List.eq_nil_iff_forall_not_mem] at h0
    exact h0 _ (List.mem_map_of_mem _ this)
  refine ⟨?_, hfm, hne⟩
  intro s hs
  unfold chat1 at hs
  by_cases h1 : trimWS message = []
  · rw [if_pos h1] at hs
    cases hs
  · rw [if_neg h1] at hs
    by_cases h2 : kb.isEmpty = true
    · rw [if_pos h2] at hs
      cases hs
    · rw [if_neg h2] at hs
      simp only [htag] at hs
      cases hov : smartBoundaryAndInterview (message.map jsLower) rnd with
      | some a =>
        rw [hov] at hs
        cases hs
      | none =>
        rw [hov] at hs
        cases hca : interviewAnswerA clusters message rnd with
        | some a =>
          rw [hca] at hs
          cases hs
        | none =>
          rw [hca] at hs
          by_cases hp : ((kb.map (fun it => Scored.mk it.cid it.tag it.text
              (sim (embedO message) it.embedding))).filter
                (fun s => s.tag == tg)).isEmpty = true
          · exact absurd (List.isEmpty_eq_true.mp hp) hne
          · rw [if_neg hp] at hs
            unfold chatFinish at hs
            simp only [] at hs
            have hs1 : s ∈ (List.insertionSort (fun a b => b.score ≤ a.score)
                ((kb.map (fun it => Scored.mk it.cid it.tag it.text
                  (sim (embedO message) it.embedding))).filter
                    (fun s => s.tag == tg))).take 3 := hs
            have hs2 := List.mem_of_mem_take hs1
            have hs3 := (List.perm_insertionSort
              (fun a b : Scored => b.score ≤ a.score) _).subset hs2
            have := (List.mem_filter.mp hs3).2
            simpa using this

/-- Witness for `chat_scoped`: message "skills", one `skills` chunk. -/
theorem chat_scoped_witness :
    detectTag ("skills".data.map jsLower) = some "skills".data ∧
      (∃ c ∈ [Chunk.mk "1".data "skills".data "text".data []],
        c.tag = "skills".data) ∧
      ((∀ s ∈ (chat1 [Chunk.mk "1".data "skills".data "text".data []] []
            (fun _ => []) (fun _ _ => 0) (fun _ _ _ => some "reply".data) (fun _ => 0)
            "skills".data true 0).context, s.tag = "skills".data) ∧
        ([Chunk.mk "1".data "skills".data "text".data []].map
            (fun it => Scored.mk it.cid it.tag it.text
              ((fun _ _ => (0 : ℚ)) ((fun _ => ([] : List ℚ)) "skills".data)
                it.embedding))).filter (fun s => s.tag == "skills".data) =
          ([Chunk.mk "1".data "skills".data "text".data []].filter
            (fun c => c.tag == "skills".data)).map
              (fun it => Scored.mk it.cid it.tag it.text
                ((fun _ _ => (0 : ℚ)) ((fun _ => ([] : List ℚ)) "skills".data)
                  it.embedding)) ∧
        ([Chunk.mk "1".data "skills".data "text".data []].map
            (fun it => Scored.mk it.cid it.tag it.text
              ((fun _ _ => (0 : ℚ)) ((fun _ => ([] : List ℚ)) "skills".data)
                it.embedding))).filter (fun s => s.tag == "skills".data) ≠ []) :=
  ⟨by decide, ⟨Chunk.mk "1".data "skills".data "text".data [], by decide, by decide⟩,
   chat_scoped [Chunk.mk "1".data "skills".data "text".data []] []
     (fun _ => []) (fun _ _ => 0) (fun _ _ _ => some "reply".data) (fun _ => 0)
     "skills".data true 0 "skills".data (by decide)
     ⟨Chunk.mk "1".data "skills".data "text".data [], by decide, by decide⟩⟩

/-- **C3.**  For the literal English query "How old is she?" (with the
knowledge base loaded), the boundary matcher returns a non-null
deflection — one of the age-boundary answers — which the handler
returns immediately: the embedding call, the ranker and the generator
are never invoked for that request and no context chunk is selected. -/
theorem chat_age_shortcircuit (kb : List Chunk) (clusters : List Cluster)
    (embedO : List Char → List ℚ) (sim : List ℚ → List ℚ → ℚ)
    (gen : List (List Char) → List Char → Variant → Option (List Char))
    (rr : List Char → Nat) (debug : Bool) (rnd : Nat)
    (hkb : kb ≠ []) :
    smartBoundaryAndInterview ("How old is she?".data.map jsLower) rnd =
        some (pickOpt rnd ageOpts) ∧
      (chat1 kb clusters embedO sim gen rr "How old is she?".data debug rnd).answer
          ∈ ageOpts ∧
      (chat1 kb clusters embedO sim gen rr "How old is she?".data debug rnd).embedCalled
          = false ∧
      (chat1 kb clusters embedO sim gen rr "How old is she?".data debug rnd).generateCalled
          = false ∧
      (chat1 kb clusters embedO sim gen rr "How old is she?".data debug rnd).context
          = [] := by
  have hb : smartBoundaryAndInterview ("How old is she?".data.map jsLower) rnd =
      some (pickOpt rnd ageOpts) := by
    unfold smartBoundaryAndInterview
    rw [if_pos (by decide : ageTest (boundaryPrep ("How old is she?".data.map jsLower)) = true)]
  have hmem : pickOpt rnd ageOpts ∈ ageOpts := by
    unfold pickOpt
    have hlt : rnd % ageOpts.length < ageOpts.length :=
      Nat.mod_lt _ (by decide)
    rw [List.getD_eq_getElem ageOpts [] hlt]
    exact List.getElem_mem hlt
  have hout : chat1 kb clusters embedO sim gen rr "How old is she?".data debug rnd =
      ⟨pickOpt rnd ageOpts, none, none, false, false, []⟩ := by
    unfold chat1
    rw [if_neg (by decide : ¬(trimWS "How old is she?".data = []))]
    rw [if_neg (by simp only [List.isEmpty_eq_true]; exact hkb)]
    simp only [hb]
  refine ⟨hb, ?_, ?_, ?_, ?_⟩ <;> rw [hout]
  exact hmem

/-- Witness for `chat_age_shortcircuit` with a one-chunk knowledge base. -/
theorem chat_age_shortcircuit_witness :
    smartBoundaryAndInterview ("How old is she?".data.map jsLower) 1 =
        some (pickOpt 1 ageOpts) ∧
      (chat1 [Chunk.mk "1".data "skills".data "text".data []] []
          (fun _ => []) (fun _ _ => 0) (fun _ _ _ => none) (fun _ => 0)
          "How old is she?".data false 1).answer ∈ ageOpts ∧
      (chat1 [Chunk.mk "1".data "skills".data "text".data []] []
          (fun _ => []) (fun _ _ => 0) (fun _ _ _ => none) (fun _ => 0)
          "How old is she?".data false 1).embedCalled = false ∧
      (chat1 [Chunk.mk "1".data "skills".data "text".data []] []
          (fun _ => []) (fun _ _ => 0) (fun _ _ _ => none) (fun _ => 0)
          "How old is she?".data false 1).generateCalled = false ∧
      (chat1 [Chunk.mk "1".data "skills".data "text".data []] []
          (fun _ => []) (fun _ _ => 0) (fun _ _ _ => none) (fun _ => 0)
          "How old is she?".data false 1).context = [] :=
  chat_age_shortcircuit [Chunk.mk "1".data "skills".data "text".data []] []
    (fun _ => []) (fun _ _ => 0) (fun _ _ _ => none) (fun _ => 0) false 1 (by decide)

theorem getD_mem {α : Type} (l : List α) (n : Nat) (d : α) (h : n < l.length) :
    l.getD n d ∈ l := by
  rw [List.getD_eq_getElem l d h]
  exact List.getElem_mem h

/-- Any answer produced by the effective interview-bank loop comes from
a matched cluster's pool for the detected language itself. -/
theorem iaLoop_spec (lang q : List Char) (rnd : Nat) :
    ∀ (cls : List Cluster) (a : List Char), iaLoop lang q rnd cls = some a →
      ∃ c ∈ cls,
        ((trigSel lang c).map (fun t => trimWS (t.map jsLower))).any
            (fun t => !t.isEmpty && containsSub t q) = true ∧
          ansSel lang c ≠ [] ∧ a ∈ ansSel lang c := by
  intro cls
  induction cls with
  | nil => intro a h; cases h
  | cons c rest ih =>
    intro a h
    simp only [iaLoop] at h
    by_cases htrig : (((trigSel lang c).map (fun t => trimWS (t.map jsLower))).any
        (fun t => !t.isEmpty && containsSub t q)) = true
    · rw [if_pos htrig] at h
      by_cases hpool : (!(ansSel lang c).isEmpty) = true
      · rw [if_pos hpool] at h
        have hne : ansSel lang c ≠ [] := by
          intro h0
          rw [h0] at hpool
          simp at hpool
        have hlen : 0 < (ansSel lang c).length := by
          cases hx : ansSel lang c with
          | nil => exact absurd hx hne
          | cons y ys => simp [hx]
        rcases h with ⟨⟩
        refine ⟨c, List.mem_cons_self _ _, htrig, hne, ?_⟩
        exact getD_mem _ _ _ (Nat.mod_lt _ hlen)
      · rw [if_neg hpool] at h
        rcases ih a h with ⟨c', hc', hp⟩
        exact ⟨c', List.mem_cons_of_mem _ hc', hp⟩
    · rw [if_neg htrig] at h
      rcases ih a h with ⟨c', hc', hp⟩
      exact ⟨c', List.mem_cons_of_mem _ hc', hp⟩

/-- **C4 (amended).**  In the effective `interviewAnswer` of `server.js`
(the second declaration shadows the multilingual one), an answer is
drawn only from the detected language's own pool of a cluster whose
detected-language trigger matched; a cluster whose pool is empty or
missing is skipped; there is no fallback to the English pool and no
second pass over English triggers — those exist only in the shadowed
first declaration and in the `part_002` variant. -/
theorem interviewAnswerA_own_pool (clusters : List Cluster) (question : List Char)
    (rnd : Nat) (a : List Char)
    (h : interviewAnswerA clusters question rnd = some a) :
    ∃ c ∈ clusters,
      ((trigSel (guessLang (question.map jsLower)) c).map
          (fun t => trimWS (t.map jsLower))).any
        (fun t => !t.isEmpty && containsSub t (question.map jsLower)) = true ∧
      ansSel (guessLang (question.map jsLower)) c ≠ [] ∧
      a ∈ ansSel (guessLang (question.map jsLower)) c := by
  unfold interviewAnswerA at h
  split at h
  · cases h
  · exact iaLoop_spec _ _ rnd clusters a h

/-- The cluster of the C4 counterexample: the German trigger matches,
the German pool is present but empty, the English pool is nonempty. -/
def cexCluster : Cluster :=
  { triggers_en := some ["lebenslauf".data]
    triggers_de := some ["lebenslauf".data]
    triggers_ro := none
    answers_en := some ["The full CV is available as PDF.".data]
    answers_de := some []
    answers_ro := none }

/-- **C4, counterexample to the claim as stated.**  For the query
"lebenslauf" the detected language is German, the cluster's German
trigger matches, its German pool is empty and its English pool is
nonempty, so the claimed fallback (or the claimed second pass over the
matching English triggers) would produce that English answer — but the
effective code returns `null`. -/
theorem interviewAnswer_fallback_cex :
    guessLang ("lebenslauf".data.map jsLower) = "de".data ∧
      ((trigSel "de".data cexCluster).map (fun t => trimWS (t.map jsLower))).any
        (fun t => !t.isEmpty && containsSub t ("lebenslauf".data.map jsLower)) = true ∧
      ansSel "de".data cexCluster = [] ∧
      cexCluster.answers_en = some ["The full CV is available as PDF.".data] ∧
      ((trigSel "en".data cexCluster).map (fun t => trimWS (t.map jsLower))).any
        (fun t => !t.isEmpty && containsSub t ("lebenslauf".data.map jsLower)) = true ∧
      interviewAnswerA [cexCluster] "lebenslauf".data 0 = none := by
  decide

/-- A healthy one-cluster interview bank used by the C4 witness. -/
def okCluster : Cluster :=
  { triggers_en := some ["hi".data], triggers_de := none, triggers_ro := none,
    answers_en := some ["Hello there.".data], answers_de := none, answers_ro := none }

/-- Witness for `interviewAnswerA_own_pool`: a one-cluster bank answering
"hi" from its own English pool. -/
theorem interviewAnswerA_own_pool_witness :
    interviewAnswerA [okCluster] "hi".data 0 = some "Hello there.".data ∧
      (∃ c ∈ [okCluster],
        ((trigSel (guessLang ("hi".data.map jsLower)) c).map
            (fun t => trimWS (t.map jsLower))).any
          (fun t => !t.isEmpty && containsSub t ("hi".data.map jsLower)) = true ∧
        ansSel (guessLang ("hi".data.map jsLower)) c ≠ [] ∧
        "Hello there.".data ∈ ansSel (guessLang ("hi".data.map jsLower)) c) :=
  ⟨by decide,
   interviewAnswerA_own_pool [okCluster] "hi".data 0 "Hello there.".data (by decide)⟩

end CVBot
